import Mathlib

/-!
Verification of the Shelfer diff/validate/merge engine.

This development shallowly embeds the core of the repository:

* `compareJsonObjects` (frontend json-diff) — structural diff of two JSON
  documents into a tree of `DiffNode`s;
* `processObject` / `generateFinalJson` (frontend/utils/json-generator.ts) —
  reconciliation of the enriched document with the diff tree and the per-path
  validation decisions;
* `getAllPendingFields` (frontend/utils/json-generator.ts) — collection of
  leaf paths still awaiting a decision;
* `handleSave` (the editable-value component) — type-directed coercion of an
  edited text input;
* `handleRemoveField` (product-data-enrichment component) — structural removal
  of a key or array element from the enriched document.

JSON documents are modelled by the inductive type `Json`; JavaScript objects
are insertion-ordered association lists, JavaScript numbers are modelled by
`Int` (none of the verified code performs arithmetic on document values), and
property lookup mirrors JavaScript semantics (`jsGet`, `jsTruthy`, ...).
-/

/-- A JSON value: the `JsonValue` type of the frontend.  Objects are
insertion-ordered association lists, as `Object.entries` exposes them. -/
inductive Json : Type where
  | null : Json
  | bool : Bool → Json
  | num : Int → Json
  | str : String → Json
  | arr : List Json → Json
  | obj : List (String × Json) → Json

mutual

/-- Structural (deep) equality of JSON values.  On JSON-representable data
this coincides with the `JSON.stringify(a) === JSON.stringify(b)` comparison
used by the diff engine. -/
def beqJson : Json → Json → Bool
  | .null, .null => true
  | .bool a, .bool b => a == b
  | .num a, .num b => a == b
  | .str a, .str b => a == b
  | .arr xs, .arr ys => beqJsonList xs ys
  | .obj fs, .obj gs => beqJsonFields fs gs
  | _, _ => false

/-- Deep equality of JSON arrays, element by element. -/
def beqJsonList : List Json → List Json → Bool
  | [], [] => true
  | x :: xs, y :: ys => beqJson x y && beqJsonList xs ys
  | _, _ => false

/-- Deep equality of JSON object entry lists, entry by entry. -/
def beqJsonFields : List (String × Json) → List (String × Json) → Bool
  | [], [] => true
  | (k1, v1) :: fs, (k2, v2) :: gs => k1 == k2 && beqJson v1 v2 && beqJsonFields fs gs
  | _, _ => false

end

theorem beqJson_iff_eq :
    ∀ (n : Nat),
      (∀ (a b : Json), sizeOf a ≤ n → (beqJson a b = true ↔ a = b)) ∧
      (∀ (xs ys : List Json), sizeOf xs ≤ n → (beqJsonList xs ys = true ↔ xs = ys)) ∧
      (∀ (fs gs : List (String × Json)), sizeOf fs ≤ n →
        (beqJsonFields fs gs = true ↔ fs = gs)) := by
  intro n
  induction n with
  | zero =>
    refine ⟨fun a b h => ?_, fun xs ys h => ?_, fun fs gs h => ?_⟩
    · cases a <;> simp_all
    · cases xs <;> simp_all
    · cases fs <;> simp_all
  | succ n ih =>
    obtain ⟨ihj, ihl, ihf⟩ := ih
    refine ⟨fun a b h => ?_, fun xs ys h => ?_, fun fs gs h => ?_⟩
    · cases a <;> cases b <;> simp [beqJson]
      case arr.arr xs ys =>
        have hs : sizeOf xs ≤ n := by simp at h; omega
        exact ihl xs ys hs
      case obj.obj fs gs =>
        have hs : sizeOf fs ≤ n := by simp at h; omega
        exact ihf fs gs hs
    · cases xs <;> cases ys <;> simp [beqJsonList]
      case cons.cons x xs y ys =>
        have h1 : sizeOf x ≤ n := by simp at h; omega
        have h2 : sizeOf xs ≤ n := by simp at h; omega
        rw [ihj x y h1, ihl xs ys h2]
    · cases fs <;> cases gs <;> simp [beqJsonFields]
      case cons.cons f fs g gs =>
        obtain ⟨k1, v1⟩ := f
        obtain ⟨k2, v2⟩ := g
        have h1 : sizeOf v1 ≤ n := by simp at h; omega
        have h2 : sizeOf fs ≤ n := by simp at h; omega
        simp [beqJsonFields, ihj v1 v2 h1, ihf fs gs h2]

instance : DecidableEq Json := fun a b =>
  decidable_of_iff (beqJson a b = true) ((beqJson_iff_eq (sizeOf a)).1 a b le_rfl)

theorem beqJson_eq_true_iff {a b : Json} : beqJson a b = true ↔ a = b :=
  (beqJson_iff_eq (sizeOf a)).1 a b le_rfl

/-- The `JSON.stringify(a) === JSON.stringify(b)` comparison applied to two
(possibly absent) property values. -/
def beqJsonOpt : Option Json → Option Json → Bool
  | some a, some b => beqJson a b
  | none, none => true
  | _, _ => false

theorem beqJsonOpt_eq_true_iff {a b : Option Json} : beqJsonOpt a b = true ↔ a = b := by
  cases a <;> cases b <;> simp [beqJsonOpt, beqJson_eq_true_iff]

/-- The `DiffType` from json-diff: classification of one key of the diff tree. -/
inductive DiffType : Type where
  | NEW : DiffType
  | MODIFIED : DiffType
  | UNCHANGED : DiffType
deriving DecidableEq, Repr

/-- The `ValidationState` from the frontend validation types. -/
inductive ValidationState : Type where
  | PENDING : ValidationState
  | APPROVED : ValidationState
  | DECLINED : ValidationState
deriving DecidableEq, Repr

/-- One entry of a `DiffResult`: `{type, value?, originalValue?, nested?}`.
`value` and `originalValue` are optional in the source interface
(`undefined` is modelled by `none`); `nested` is the child diff tree. -/
inductive DiffNode : Type where
  | mk : DiffType → Option Json → Option Json → Option (List (String × DiffNode)) → DiffNode

/-- The `DiffResult`: a mapping from keys to diff nodes, in insertion order. -/
abbrev DiffResult : Type := List (String × DiffNode)

/-- The `type` field of a diff node. -/
def DiffNode.type : DiffNode → DiffType
  | .mk t _ _ _ => t

/-- The `value` field of a diff node. -/
def DiffNode.value : DiffNode → Option Json
  | .mk _ v _ _ => v

/-- The `originalValue` field of a diff node. -/
def DiffNode.originalValue : DiffNode → Option Json
  | .mk _ _ ov _ => ov

/-- The `nested` field of a diff node. -/
def DiffNode.nested : DiffNode → Option DiffResult
  | .mk _ _ _ n => n

/-- The `FieldValidation`: the validation store, a map from dot-joined field paths
to decisions; a missing entry means the field is still pending. -/
def FieldValidation : Type := String → Option ValidationState

/-- JavaScript property read `j[k]` restricted to JSON values: own key of an
object.  Arrays and primitives have no own string-named data properties that
the verified code ever reads through this helper. -/
def jsGet : Json → String → Option Json
  | .obj fs, k => fs.lookup k
  | _, _ => none

/-- The `Object.keys` of a JSON value: the own keys of a non-array object,
`[]` for everything else (mirroring the ternary guard in the source). -/
def jsObjKeys : Json → List String
  | .obj fs => fs.map Prod.fst
  | _ => []

/-- JavaScript truthiness of a JSON value. -/
def jsTruthy : Json → Bool
  | .null => false
  | .bool b => b
  | .num n => n != 0
  | .str s => s != ""
  | .arr _ => true
  | .obj _ => true

/-- The `typeof v === "object" && !Array.isArray(v)` — note that `null` also has
`typeof` `"object"` in JavaScript. -/
def jsIsObjLike : Json → Bool
  | .null => true
  | .obj _ => true
  | _ => false

/-- The `originalValue || {}` from the source: an absent or falsy original value
falls back to the empty object. -/
def jsOrElseEmptyObj : Option Json → Json
  | none => .obj []
  | some v => if jsTruthy v then v else .obj []

/-- The `isPrimitive` helper of `getAllPendingFields`:
`val === null || typeof val !== "object"`, applied to the optional `value`
field (`undefined` satisfies it as well). -/
def jsIsPrimitiveOpt : Option Json → Bool
  | none => true
  | some .null => true
  | some (.bool _) => true
  | some (.num _) => true
  | some (.str _) => true
  | some (.arr _) => false
  | some (.obj _) => false

/-- The `Array.isArray` applied to the optional `value` field. -/
def jsIsArrOpt : Option Json → Bool
  | some (.arr _) => true
  | _ => false

/-- Null (or undefined) is replaced by an empty object at the top of
`compareJsonObjects`. -/
def nullToEmpty : Json → Json
  | .null => .obj []
  | j => j

/-- First-occurrence deduplication of a key list; models the iteration order
of `new Set([...originalKeys, ...enrichedKeys])`. -/
def dedupKeys : List String → List String
  | [] => []
  | k :: rest => k :: dedupKeys (rest.filter (fun x => x ≠ k))
termination_by l => l.length
decreasing_by
  simp only [List.length_cons]
  exact Nat.lt_succ_of_le (List.length_filter_le _ _)

theorem mem_dedupKeys {k : String} : ∀ {l : List String}, k ∈ dedupKeys l ↔ k ∈ l := by
  intro l
  induction l using dedupKeys.induct with
  | case1 => simp [dedupKeys]
  | case2 a rest ih =>
    simp only [dedupKeys, List.mem_cons, ih, List.mem_filter]
    constructor
    · rintro (h | ⟨h, _⟩)
      · exact Or.inl h
      · exact Or.inr h
    · rintro (h | h)
      · exact Or.inl h
      · by_cases hk : k = a
        · exact Or.inl hk
        · exact Or.inr ⟨h, by simpa using hk⟩

theorem nodup_dedupKeys : ∀ (l : List String), (dedupKeys l).Nodup := by
  intro l
  induction l using dedupKeys.induct with
  | case1 => simp [dedupKeys]
  | case2 a rest ih =>
    simp only [dedupKeys, List.nodup_cons]
    refine ⟨?_, ih⟩
    intro hmem
    have := (mem_dedupKeys).mp hmem
    simp [List.mem_filter] at this

theorem lookup_sizeOf {β : Type} [SizeOf β] :
    ∀ (l : List (String × β)) (k : String) (v : β), l.lookup k = some v → sizeOf v < sizeOf l := by
  intro l
  induction l with
  | nil => intro k v h; simp [List.lookup] at h
  | cons hd rest ih =>
    intro k v h
    obtain ⟨k1, v1⟩ := hd
    simp only [List.lookup] at h
    by_cases hk : (k == k1) = true
    · simp [hk] at h
      subst h
      simp
      omega
    · simp [hk] at h
      have := ih k v h
      simp
      omega

theorem jsGet_sizeOf {j : Json} {k : String} {v : Json} (h : jsGet j k = some v) :
    sizeOf v < sizeOf j := by
  cases j <;> simp [jsGet] at h
  case obj fs =>
    have := lookup_sizeOf fs k v h
    simp
    omega

theorem jsGet_nullToEmpty (j : Json) (k : String) : jsGet (nullToEmpty j) k = jsGet j k := by
  cases j <;> rfl

/-- The `hasChanges` test of the diff engine: some direct child of the nested
diff has a kind other than UNCHANGED. -/
def diffAnyChanged (d : DiffResult) : Bool :=
  d.any (fun kv => kv.2.type != DiffType.UNCHANGED)

/-- The `compareJsonObjects` from json-diff: structural diff of `original0` and
`enriched0`.  Null (or undefined) inputs are replaced by the empty object;
the key set is the union of both key sets in `Set` insertion order; a key only
on the enriched side is NEW; a key on both sides recurses when both values are
non-null non-array objects (MODIFIED iff some child changed) and otherwise
deep-compares the two values; a key only on the original side emits nothing. -/
def compareJsonObjects (original0 enriched0 : Json) (path : String) : DiffResult :=
  let original := nullToEmpty original0
  let enriched := nullToEmpty enriched0
  let originalKeys := jsObjKeys original
  let enrichedKeys := jsObjKeys enriched
  let allKeys := dedupKeys (originalKeys ++ enrichedKeys)
  allKeys.filterMap (fun key =>
    let currentPath := if path = "" then key else path ++ "." ++ key
    if ¬ originalKeys.contains key then
      some (key, DiffNode.mk DiffType.NEW (jsGet enriched key) none none)
    else if enrichedKeys.contains key then
      match h1 : jsGet original key, h2 : jsGet enriched key with
      | some (Json.obj ofs), some (Json.obj efs) =>
        let nestedDiff := compareJsonObjects (Json.obj ofs) (Json.obj efs) currentPath
        let hasChanges := diffAnyChanged nestedDiff
        some (key, DiffNode.mk (if hasChanges then DiffType.MODIFIED else DiffType.UNCHANGED)
          (some (Json.obj efs)) (some (Json.obj ofs)) (some nestedDiff))
      | ov, ev =>
        some (key, DiffNode.mk (if beqJsonOpt ov ev then DiffType.UNCHANGED else DiffType.MODIFIED)
          ev ov none)
    else none)
termination_by sizeOf original0 + sizeOf enriched0
decreasing_by
  rw [jsGet_nullToEmpty] at h1 h2
  have o1 := jsGet_sizeOf h1
  have o2 := jsGet_sizeOf h2
  omega

/-- Some descendant node (a child, or recursively a child of a child) has a
kind other than UNCHANGED.  Used to state the spec's "any descendant kind
differs from UNCHANGED" formulation. -/
def diffAnyChangedDeep : DiffResult → Bool
  | [] => false
  | (_, DiffNode.mk t _ _ nst) :: rest =>
    (t != DiffType.UNCHANGED ||
      (match nst with
       | some n => diffAnyChangedDeep n
       | none => false))
    || diffAnyChangedDeep rest
termination_by d => sizeOf d
decreasing_by
  all_goals simp
  all_goals omega

/-- The dot-joined field path `[...currentPath, key].join(".")`. -/
def joinPath (segs : List String) : String :=
  String.intercalate "." segs

/-- The `validationStates[fieldPath] || ValidationState.PENDING`: a missing entry
defaults to PENDING (all stored states are truthy strings in the source). -/
def lookupState (validationStates : FieldValidation) (fieldPath : String) : ValidationState :=
  (validationStates fieldPath).getD ValidationState.PENDING

/-- The `processObject` from json-generator.ts: reconcile the enriched document
with the diff tree and the validation store.  Non-object (and null) enriched
data passes through unchanged; for an object, each entry is kept, replaced by
the original value, recursed into, or omitted according to the diff kind and
the validation state of its dot-joined path.  In the MODIFIED/DECLINED branch
with an absent `originalValue` the source assigns `undefined` to the key,
which is modelled as omitting the key (the two are identical under JSON
serialization of the result). -/
def processObject (originalData enrichedData : Json) (diffResult : DiffResult)
    (validationStates : FieldValidation) (currentPath : List String) : Json :=
  match enrichedData with
  | Json.obj fields =>
    Json.obj (fields.filterMap (fun kv =>
      let key := kv.1
      let enrichedValue := kv.2
      let validationState := lookupState validationStates (joinPath (currentPath ++ [key]))
      match h : diffResult.lookup key with
      | none => some (key, enrichedValue)
      | some (DiffNode.mk DiffType.NEW _v _ov (some n)) =>
        if validationState = ValidationState.APPROVED ∨ validationState = ValidationState.PENDING then
          if jsIsObjLike enrichedValue then
            some (key, processObject (Json.obj []) enrichedValue n validationStates
              (currentPath ++ [key]))
          else some (key, enrichedValue)
        else none
      | some (DiffNode.mk DiffType.NEW _v _ov none) =>
        if validationState = ValidationState.APPROVED ∨ validationState = ValidationState.PENDING then
          some (key, enrichedValue)
        else none
      | some (DiffNode.mk DiffType.MODIFIED _v ov (some n)) =>
        if validationState = ValidationState.DECLINED then
          match ov with
          | some o => some (key, o)
          | none => none
        else
          if jsIsObjLike enrichedValue then
            some (key, processObject (jsOrElseEmptyObj ov) enrichedValue n validationStates
              (currentPath ++ [key]))
          else some (key, enrichedValue)
      | some (DiffNode.mk DiffType.MODIFIED _v ov none) =>
        if validationState = ValidationState.DECLINED then
          match ov with
          | some o => some (key, o)
          | none => none
        else some (key, enrichedValue)
      | some (DiffNode.mk DiffType.UNCHANGED _v ov (some n)) =>
        if jsIsObjLike enrichedValue then
          some (key, processObject (jsOrElseEmptyObj ov) enrichedValue n validationStates
            (currentPath ++ [key]))
        else some (key, enrichedValue)
      | some (DiffNode.mk DiffType.UNCHANGED _v _ov none) =>
        some (key, enrichedValue)))
  | e => e
termination_by sizeOf diffResult
decreasing_by
  all_goals
    have hn := lookup_sizeOf _ _ _ h
    simp at hn
    omega

/-- The `generateFinalJson` from json-generator.ts. -/
def generateFinalJson (originalData enrichedData : Json) (diffResult : DiffResult)
    (validationStates : FieldValidation) : Json :=
  processObject originalData enrichedData diffResult validationStates []

/-- The `getAllPendingFields` from json-generator.ts: walk the diff tree and
collect the dot-joined paths of the fields still requiring a decision.  The
key `"@type"` is always skipped; a PENDING NEW/MODIFIED entry is collected
only when its `value` is primitive; an entry with a nested tree is recursed
into unless its `value` is an array (in the array branch the source recurses
only into nested entries without a `type` field, which a well-typed
`DiffResult` never contains, so nothing is collected there). -/
def getAllPendingFields (diffResult : DiffResult) (validationStates : FieldValidation)
    (path : List String) : List String :=
  match diffResult with
  | [] => []
  | (key, DiffNode.mk dtype dvalue _dorig nst) :: rest =>
    (if key = "@type" then [] else
      let fieldPath := joinPath (path ++ [key])
      let validationState := lookupState validationStates fieldPath
      (if jsIsPrimitiveOpt dvalue then
        if validationState = ValidationState.PENDING ∧
            (dtype = DiffType.NEW ∨ dtype = DiffType.MODIFIED) then
          [fieldPath]
        else []
       else []) ++
      (match nst with
       | some n =>
         if jsIsArrOpt dvalue then []
         else getAllPendingFields n validationStates (path ++ [key])
       | none => []))
    ++ getAllPendingFields rest validationStates path
termination_by sizeOf diffResult
decreasing_by
  all_goals simp
  all_goals omega

/-- Is the pre-edit value a number? (`typeof value === "number"`). -/
def jsIsNum : Json → Bool
  | .num _ => true
  | _ => false

/-- Is the pre-edit value a boolean? (`typeof value === "boolean"`). -/
def jsIsBool : Json → Bool
  | .bool _ => true
  | _ => false

/-- The `editValue.toLowerCase()` (ASCII case folding, character by character). -/
def jsToLower (s : String) : String :=
  String.mk (s.toList.map Char.toLower)

/-- The `handleSave` from the editable-value component: coerce the edited text to
the type of the pre-edit value.  The JavaScript `Number(...)` conversion is an
ambient parameter `jsNumber` of the model (returning `none` exactly when the
conversion yields `NaN`, i.e. when the `isNaN` guard fires). -/
def handleSave (jsNumber : String → Option Int) (value : Json) (editValue : String) : Json :=
  if jsIsNum value then
    match jsNumber editValue with
    | some numValue => Json.num numValue
    | none => Json.str editValue
  else if jsIsBool value then
    Json.bool (jsToLower editValue == "true")
  else if value = Json.null ∧ jsToLower editValue = "null" then
    Json.null
  else
    Json.str editValue

/-- The `finalKey.replace(/\[|\]/g, "")`: drop every square bracket. -/
def stripBrackets (s : String) : String :=
  String.mk (s.toList.filter (fun c => c ≠ '[' ∧ c ≠ ']'))

/-- The numeric value of a leading run of decimal digits, `none` if the run is
empty. -/
def digitsPrefixVal (cs : List Char) : Option Nat :=
  match cs.takeWhile Char.isDigit with
  | [] => none
  | ds => some (ds.foldl (fun a c => a * 10 + (c.toNat - 48)) 0)

/-- The `parseInt(s, 10)`: skip leading whitespace, read an optional sign and then
a maximal run of decimal digits; `NaN` (here `none`) when no digit follows. -/
def jsParseInt10 (s : String) : Option Int :=
  let cs := s.toList.dropWhile (fun c => c = ' ' ∨ c = '\t' ∨ c = '\n' ∨ c = '\r')
  match cs with
  | '-' :: rest => (digitsPrefixVal rest).map (fun n => -(n : Int))
  | '+' :: rest => (digitsPrefixVal rest).map (fun n => (n : Int))
  | _ => (digitsPrefixVal cs).map (fun n => (n : Int))

/-- A canonical array-index property name: a nonempty digit string without a
superfluous leading zero (JavaScript array elements live at such keys). -/
def canonIndex (s : String) : Option Nat :=
  let cs := s.toList
  if cs ≠ [] ∧ cs.all Char.isDigit ∧ (cs.headD '0' = '0' → cs = ['0']) then
    some (cs.foldl (fun a c => a * 10 + (c.toNat - 48)) 0)
  else none

/-- Is the value the JavaScript `null`? -/
def Json.isNull : Json → Bool
  | .null => true
  | _ => false

/-- JavaScript property read `current[seg]` on a non-null base, as used by
the removal walk: an own key of an object; an element of an array addressed
by a canonical index key, or its `length`; a one-character string for an
in-range canonical index of a string, or its `length`.  Booleans and numbers
have no own properties; `none` is the JavaScript `undefined`.  A null base is
not read through this helper: reading a property of `null` throws a
TypeError, which the callers model explicitly. -/
def jsProp : Json → String → Option Json
  | .obj fs, k => fs.lookup k
  | .arr xs, k =>
    if k = "length" then some (.num xs.length)
    else
      match canonIndex k with
      | some i => xs.get? i
      | none => none
  | .str s, k =>
    if k = "length" then some (.num s.length)
    else
      match canonIndex k with
      | some i => (s.toList.get? i).map (fun c => .str (String.mk [c]))
      | none => none
  | _, _ => none

/-- Does the String wrapper of `s` own a non-configurable property named `k`
(an in-range canonical index or `length`)?  A strict-mode `delete` of such a
property throws a TypeError. -/
def strOwnIndexOrLength (s k : String) : Bool :=
  k == "length" ||
    (match canonIndex k with
     | some i => i < s.length
     | none => false)

/-- Replace the value stored at the first occurrence of a key, appending the
entry when the key is absent (JavaScript assignment semantics). -/
def setKey : List (String × Json) → String → Json → List (String × Json)
  | [], k, v => [(k, v)]
  | (k1, v1) :: rest, k, v =>
    if k1 = k then (k1, v) :: rest else (k1, v1) :: setKey rest k v

/-- JavaScript property write `current[seg] = v` on a container (object key
assignment, or array element assignment at a canonical in-bounds index). -/
def jsSetProp : Json → String → Json → Json
  | .obj fs, k, v => .obj (setKey fs k v)
  | .arr xs, k, v =>
    (match canonIndex k with
     | some i => .arr (xs.set i v)
     | none => .arr xs)
  | j, _, _ => j

/-- The `xs.splice(idx, 1)`: remove one element, with JavaScript index clamping
(negative indices count from the end, out-of-range indices remove nothing). -/
def jsSplice1 (xs : List Json) (idx : Int) : List Json :=
  let start : Nat := if idx < 0 then (max ((xs.length : Int) + idx) 0).toNat
                     else (min idx (xs.length : Int)).toNat
  xs.take start ++ xs.drop (start + 1)

/-- The `delete current[finalKey]`: remove the first occurrence of the key. -/
def eraseKey (fs : List (String × Json)) (k : String) : List (String × Json) :=
  fs.eraseP (fun kv => kv.1 == k)

/-- The body of `handleRemoveField` after the deep clone: walk all segments
but the last through truthy property values, then remove at the final
container: splice an array at the parsed index (no-op if `parseInt` fails),
delete a key of an object, and do nothing on a boolean or number.  The result
is an `Option`: `none` models a raised TypeError — reading a property of a
null base during the walk (`!current[pathArray[i]]` on a null root), the
final `Array.isArray(null)`/`delete null[finalKey]` step on a null root, or a
strict-mode `delete` of a non-configurable own property (an in-range index or
`length`) of a string parent; `some` is the document passed on to
`setEnrichedProduct`, with a missing or falsy step giving it back unchanged
(the loop's early `return`). -/
def removeAt (current : Json) : List String → Option Json
  | [] => some current
  | [finalKey] =>
    match current with
    | .null => none
    | .arr xs =>
      some (match jsParseInt10 (stripBrackets finalKey) with
        | some idx => .arr (jsSplice1 xs idx)
        | none => .arr xs)
    | .obj fs => some (.obj (eraseKey fs finalKey))
    | .str s => if strOwnIndexOrLength s finalKey then none else some (.str s)
    | other => some other
  | seg :: rest =>
    if current.isNull then none
    else
      match jsProp current seg with
      | none => some current
      | some v =>
        if jsTruthy v then (removeAt v rest).map (jsSetProp current seg)
        else some current

/-- One segmentation step of `fieldPath.split(".")`: accumulate characters
until a dot, then start a new segment. -/
def splitDotAux : List Char → List Char → List String
  | acc, [] => [String.mk acc.reverse]
  | acc, c :: cs =>
    if c = '.' then String.mk acc.reverse :: splitDotAux [] cs
    else splitDotAux (c :: acc) cs

/-- Executable model of `fieldPath.split(".")` (a single-character separator;
the empty string splits to `[""]`, exactly as in JavaScript). -/
def jsSplitDot (s : String) : List String :=
  splitDotAux [] s.toList

/-- The `handleRemoveField` from the product-data-enrichment component: split
the dot-joined path and remove the addressed field from (a deep clone of) the
enriched document; `none` models the handler aborting on a TypeError before
`setEnrichedProduct` is reached. -/
def handleRemoveField (enrichedProduct : Json) (fieldPath : String) : Option Json :=
  removeAt enrichedProduct (jsSplitDot fieldPath)

theorem lookup_mem {β : Type} {l : List (String × β)} {k : String} {v : β}
    (h : l.lookup k = some v) : (k, v) ∈ l := by
  induction l with
  | nil => simp [List.lookup] at h
  | cons hd rest ih =>
    obtain ⟨k1, v1⟩ := hd
    rw [List.lookup_cons] at h
    by_cases hk : (k == k1) = true
    · simp [hk] at h
      have : k = k1 := by simpa using hk
      subst this
      subst h
      exact List.mem_cons_self _ _
    · simp [hk] at h
      exact List.mem_cons_of_mem _ (ih h)

theorem lookup_eq_none_of_not_mem_keys {β : Type} {l : List (String × β)} {k : String}
    (h : k ∉ l.map Prod.fst) : l.lookup k = none := by
  induction l with
  | nil => rfl
  | cons hd rest ih =>
    obtain ⟨k1, v1⟩ := hd
    simp only [List.map_cons, List.mem_cons] at h
    push_neg at h
    rw [List.lookup_cons]
    have hne : (k == k1) = false := by simpa using h.1
    simp only [hne]
    exact ih h.2

theorem contains_iff_mem {l : List String} {k : String} : l.contains k = true ↔ k ∈ l := by
  simp [List.contains]

theorem lookup_filterMap_keyed {β : Type} (ks : List String)
    (body : String → Option (String × β))
    (hkey : ∀ k p, body k = some p → p.1 = k) (hnd : ks.Nodup) (k : String) :
    (ks.filterMap body).lookup k = if k ∈ ks then (body k).map Prod.snd else none := by
  induction ks with
  | nil => simp
  | cons a ks ih =>
    rw [List.nodup_cons] at hnd
    rw [List.filterMap_cons]
    rcases hb : body a with _ | p
    · by_cases hka : k = a
      · subst hka
        simp [hb, ih hnd.2, hnd.1]
      · simp [List.mem_cons, hka, ih hnd.2]
    · obtain ⟨p1, p2⟩ := p
      have hp : p1 = a := by simpa using hkey a _ hb
      subst hp
      rw [List.lookup_cons]
      by_cases hka : k = p1
      · subst hka
        simp [hb]
      · have hne : (k == p1) = false := by simpa using hka
        simp [hne, List.mem_cons, hka, ih hnd.2]

/-- Keys of entries produced by a key-preserving `filterMap` body. -/
theorem mem_filterMap_keyed {β : Type} {ks : List String}
    {body : String → Option (String × β)}
    (hkey : ∀ k p, body k = some p → p.1 = k) {k : String} {v : β}
    (h : (k, v) ∈ ks.filterMap body) : k ∈ ks ∧ body k = some (k, v) := by
  rw [List.mem_filterMap] at h
  obtain ⟨a, ha, hb⟩ := h
  have := hkey a _ hb
  simp at this
  subst this
  exact ⟨ha, hb⟩

/-- The value `compareJsonObjects` stores for one key: `none` when the key is
on neither side or only on the original side, the NEW node when it is only on
the enriched side, and the recursive / deep-compare node when it is on both
sides.  This is the per-key reading of the loop body of the diff engine, used
to reason about `(compareJsonObjects o e path).lookup k`. -/
def compareBody (original0 enriched0 : Json) (path key : String) : Option DiffNode :=
  let originalKeys := jsObjKeys (nullToEmpty original0)
  let enrichedKeys := jsObjKeys (nullToEmpty enriched0)
  let currentPath := if path = "" then key else path ++ "." ++ key
  if ¬ originalKeys.contains key then
    if enrichedKeys.contains key then
      some (DiffNode.mk DiffType.NEW (jsGet (nullToEmpty enriched0) key) none none)
    else none
  else if enrichedKeys.contains key then
    match jsGet (nullToEmpty original0) key, jsGet (nullToEmpty enriched0) key with
    | some (Json.obj ofs), some (Json.obj efs) =>
      some (DiffNode.mk
        (if diffAnyChanged (compareJsonObjects (Json.obj ofs) (Json.obj efs) currentPath)
         then DiffType.MODIFIED else DiffType.UNCHANGED)
        (some (Json.obj efs)) (some (Json.obj ofs))
        (some (compareJsonObjects (Json.obj ofs) (Json.obj efs) currentPath)))
    | ov, ev =>
      some (DiffNode.mk (if beqJsonOpt ov ev then DiffType.UNCHANGED else DiffType.MODIFIED)
        ev ov none)
  else none

theorem compare_lookup (o e : Json) (path k : String) :
    (compareJsonObjects o e path).lookup k = compareBody o e path k := by
  rw [compareJsonObjects.eq_def]
  simp only []
  rw [lookup_filterMap_keyed _ _ ?hkey (nodup_dedupKeys _)]
  case hkey =>
    intro k p hp
    simp only at hp
    split at hp
    · simp at hp
      simpa using (congrArg Prod.fst hp).symm
    · split at hp
      · split at hp <;> simp at hp <;> simpa using (congrArg Prod.fst hp).symm
      · simp at hp
  · simp only [mem_dedupKeys, List.mem_append, compareBody]
    by_cases hco : (jsObjKeys (nullToEmpty o)).contains k = true <;>
      by_cases hce : (jsObjKeys (nullToEmpty e)).contains k = true
    · -- key on both sides: both sides take the two-valued match
      simp only [← contains_iff_mem, hco, hce, not_true, if_false, ite_true, if_neg,
        not_false_iff, true_or, or_true, if_true]
      rcases ho : jsGet (nullToEmpty o) k with _ | v <;>
        rcases he : jsGet (nullToEmpty e) k with _ | w <;>
          first
          | rfl
          | (cases v <;> cases w <;> rfl)
          | (cases v <;> rfl)
          | (cases w <;> rfl)
    · have hmo : k ∈ jsObjKeys (nullToEmpty o) := contains_iff_mem.mp hco
      have hme : k ∉ jsObjKeys (nullToEmpty e) := fun hm => hce (contains_iff_mem.mpr hm)
      simp [hco, hce, hmo, hme]
    · have hmo : k ∉ jsObjKeys (nullToEmpty o) := fun hm => hco (contains_iff_mem.mpr hm)
      have hme : k ∈ jsObjKeys (nullToEmpty e) := contains_iff_mem.mp hce
      simp [hco, hce, hmo, hme]
    · have hmo : k ∉ jsObjKeys (nullToEmpty o) := fun hm => hco (contains_iff_mem.mpr hm)
      have hme : k ∉ jsObjKeys (nullToEmpty e) := fun hm => hce (contains_iff_mem.mpr hm)
      simp [hco, hce, hmo, hme]

theorem keys_filterMap_subset {β : Type} {ks : List String}
    {body : String → Option (String × β)}
    (hkey : ∀ k p, body k = some p → p.1 = k) {k : String}
    (h : k ∈ (ks.filterMap body).map Prod.fst) : k ∈ ks := by
  simp only [List.mem_map] at h
  obtain ⟨⟨k1, v⟩, hmem, hfst⟩ := h
  subst hfst
  exact (mem_filterMap_keyed hkey hmem).1

theorem nodup_keys_filterMap {β : Type} {ks : List String}
    {body : String → Option (String × β)}
    (hkey : ∀ k p, body k = some p → p.1 = k) (hnd : ks.Nodup) :
    ((ks.filterMap body).map Prod.fst).Nodup := by
  induction ks with
  | nil => simp
  | cons a ks ih =>
    rw [List.nodup_cons] at hnd
    rw [List.filterMap_cons]
    rcases hb : body a with _ | p
    · exact ih hnd.2
    · obtain ⟨p1, p2⟩ := p
      have hp : p1 = a := by simpa using hkey a _ hb
      subst hp
      simp only [List.map_cons, List.nodup_cons]
      refine ⟨fun hmem => hnd.1 (keys_filterMap_subset hkey hmem), ih hnd.2⟩

theorem mem_iff_lookup {β : Type} {l : List (String × β)}
    (hnd : (l.map Prod.fst).Nodup) {k : String} {v : β} :
    (k, v) ∈ l ↔ l.lookup k = some v := by
  constructor
  · intro hmem
    induction l with
    | nil => simp at hmem
    | cons hd rest ih =>
      obtain ⟨k1, v1⟩ := hd
      simp only [List.map_cons, List.nodup_cons] at hnd
      rw [List.lookup_cons]
      rcases List.mem_cons.mp hmem with heq | htl
      · obtain ⟨hk, hv⟩ := Prod.mk.injEq .. ▸ heq
        simp at heq
        obtain ⟨hk, hv⟩ := heq
        subst hk
        subst hv
        simp
      · have hk1 : k ≠ k1 := by
          intro hk
          subst hk
          exact hnd.1 (by simpa using List.mem_map_of_mem Prod.fst htl)
        have : (k == k1) = false := by simpa using hk1
        simp only [this]
        exact ih hnd.2 htl
  · exact lookup_mem

theorem jsObjKeys_nullToEmpty (j : Json) : jsObjKeys (nullToEmpty j) = jsObjKeys j := by
  cases j <;> rfl

theorem lookup_isSome_of_mem_keys {β : Type} {l : List (String × β)} {k : String}
    (h : k ∈ l.map Prod.fst) : ∃ v, l.lookup k = some v := by
  induction l with
  | nil => simp at h
  | cons hd rest ih =>
    obtain ⟨k1, v1⟩ := hd
    rw [List.lookup_cons]
    by_cases hk : (k == k1) = true
    · exact ⟨v1, by simp [hk]⟩
    · simp only [List.map_cons, List.mem_cons] at h
      have hne : k ≠ k1 := by simpa using hk
      rcases h with heq | htl
      · exact absurd heq hne
      · simpa [hk] using ih htl

theorem jsGet_isSome_of_contains {j : Json} {k : String}
    (h : (jsObjKeys j).contains k = true) : ∃ v, jsGet j k = some v := by
  cases j with
  | null => simp [jsObjKeys] at h
  | bool b => simp [jsObjKeys] at h
  | num n => simp [jsObjKeys] at h
  | str s => simp [jsObjKeys] at h
  | arr xs => simp [jsObjKeys] at h
  | obj fs => exact lookup_isSome_of_mem_keys (contains_iff_mem.mp h)

theorem contains_of_jsGet_some {j : Json} {k : String} {v : Json}
    (h : jsGet j k = some v) : (jsObjKeys j).contains k = true := by
  cases j <;> simp [jsGet] at h
  case obj fs =>
    have := lookup_mem h
    simp [jsObjKeys, contains_iff_mem]
    exact ⟨v, this⟩

theorem compare_keys_nodup (o e : Json) (path : String) :
    ((compareJsonObjects o e path).map Prod.fst).Nodup := by
  rw [compareJsonObjects.eq_def]
  simp only []
  apply nodup_keys_filterMap ?hkey (nodup_dedupKeys _)
  case hkey =>
    intro k p hp
    simp only at hp
    split at hp
    · simp at hp
      simpa using (congrArg Prod.fst hp).symm
    · split at hp
      · split at hp <;> simp at hp <;> simpa using (congrArg Prod.fst hp).symm
      · simp at hp

theorem compare_mem_iff_lookup {o e : Json} {path k : String} {node : DiffNode} :
    (k, node) ∈ compareJsonObjects o e path ↔
      (compareJsonObjects o e path).lookup k = some node :=
  mem_iff_lookup (compare_keys_nodup o e path)

/-- The nested path prefix handed to the recursive diff call. -/
def childPath (path k : String) : String :=
  if path = "" then k else path ++ "." ++ k

/-- Case analysis on a diff node stored for key `k`: it is a NEW node for a
key only on the enriched side, a recursive node for a key whose values are
objects on both sides, or a deep-compare leaf for any other key on both
sides. -/
theorem compareBody_cases {o e : Json} {path k : String} {node : DiffNode}
    (h : compareBody o e path k = some node) :
    ((jsObjKeys o).contains k = false ∧ (jsObjKeys e).contains k = true ∧
      node = DiffNode.mk DiffType.NEW (jsGet e k) none none) ∨
    (∃ ofs efs,
      jsGet o k = some (Json.obj ofs) ∧ jsGet e k = some (Json.obj efs) ∧
      node = DiffNode.mk
        (if diffAnyChanged (compareJsonObjects (Json.obj ofs) (Json.obj efs) (childPath path k))
         then DiffType.MODIFIED else DiffType.UNCHANGED)
        (some (Json.obj efs)) (some (Json.obj ofs))
        (some (compareJsonObjects (Json.obj ofs) (Json.obj efs) (childPath path k)))) ∨
    (∃ ov ev, jsGet o k = some ov ∧ jsGet e k = some ev ∧
      (∀ ofs efs, ¬ (ov = Json.obj ofs ∧ ev = Json.obj efs)) ∧
      node = DiffNode.mk (if beqJson ov ev then DiffType.UNCHANGED else DiffType.MODIFIED)
        (some ev) (some ov) none) := by
  simp only [compareBody, jsObjKeys_nullToEmpty, jsGet_nullToEmpty] at h
  split at h
  · rename_i hno
    split at h
    · rename_i hye
      left
      refine ⟨by simpa using hno, hye, by simpa using h.symm⟩
    · simp at h
  · rename_i hno
    have hco : (jsObjKeys o).contains k = true := by simpa using hno
    split at h
    · rename_i hye
      split at h
      · rename_i ofs efs heq1 heq2
        right; left
        exact ⟨ofs, efs, heq1, heq2, by simpa [childPath] using h.symm⟩
      · rename_i hnotboth
        obtain ⟨ov, hov⟩ := jsGet_isSome_of_contains hco
        obtain ⟨ev, hev⟩ := jsGet_isSome_of_contains hye
        right; right
        refine ⟨ov, ev, hov, hev, ?_, ?_⟩
        · intro ofs efs hboth
          exact hnotboth ofs efs (by rw [hov, hboth.1]) (by rw [hev, hboth.2])
        · rw [hov, hev] at h
          simpa [beqJsonOpt] using h.symm
    · simp at h

/-- The per-entry decision of `processObject` for key `key` with enriched
value `enrichedValue`: `some v` keeps the key with value `v`, `none` omits
it.  This is the per-key reading of the switch in the merge engine. -/
def processBody (diffResult : DiffResult) (validationStates : FieldValidation)
    (currentPath : List String) (key : String) (enrichedValue : Json) : Option Json :=
  let validationState := lookupState validationStates (joinPath (currentPath ++ [key]))
  match diffResult.lookup key with
  | none => some enrichedValue
  | some (DiffNode.mk DiffType.NEW _v _ov (some n)) =>
    if validationState = ValidationState.APPROVED ∨ validationState = ValidationState.PENDING then
      if jsIsObjLike enrichedValue then
        some (processObject (Json.obj []) enrichedValue n validationStates (currentPath ++ [key]))
      else some enrichedValue
    else none
  | some (DiffNode.mk DiffType.NEW _v _ov none) =>
    if validationState = ValidationState.APPROVED ∨ validationState = ValidationState.PENDING then
      some enrichedValue
    else none
  | some (DiffNode.mk DiffType.MODIFIED _v ov (some n)) =>
    if validationState = ValidationState.DECLINED then
      match ov with
      | some o => some o
      | none => none
    else
      if jsIsObjLike enrichedValue then
        some (processObject (jsOrElseEmptyObj ov) enrichedValue n validationStates
          (currentPath ++ [key]))
      else some enrichedValue
  | some (DiffNode.mk DiffType.MODIFIED _v ov none) =>
    if validationState = ValidationState.DECLINED then
      match ov with
      | some o => some o
      | none => none
    else some enrichedValue
  | some (DiffNode.mk DiffType.UNCHANGED _v ov (some n)) =>
    if jsIsObjLike enrichedValue then
      some (processObject (jsOrElseEmptyObj ov) enrichedValue n validationStates
        (currentPath ++ [key]))
    else some enrichedValue
  | some (DiffNode.mk DiffType.UNCHANGED _v _ov none) => some enrichedValue

theorem processObject_obj (o : Json) (fields : List (String × Json)) (d : DiffResult)
    (vs : FieldValidation) (pre : List String) :
    processObject o (Json.obj fields) d vs pre
      = Json.obj (fields.filterMap (fun kv =>
          (processBody d vs pre kv.1 kv.2).map (fun r => (kv.1, r)))) := by
  rw [processObject.eq_def]
  simp only []
  congr 1
  apply List.filterMap_congr
  intro kv _
  obtain ⟨key, ev⟩ := kv
  simp only [processBody]
  split <;> rename_i heq <;> simp only [heq] <;>
    first
    | rfl
    | (split <;>
        first
        | rfl
        | (split <;> rfl)
        | (rename_i hov; cases hov <;> rfl))

theorem lookup_filterMap_entries_some {α β : Type} {l : List (String × α)}
    {f : String → α → Option β} {k : String} {v : α} {r : β}
    (hl : l.lookup k = some v) (hf : f k v = some r) :
    (l.filterMap (fun kv => (f kv.1 kv.2).map (fun x => (kv.1, x)))).lookup k = some r := by
  induction l with
  | nil => simp [List.lookup] at hl
  | cons hd rest ih =>
    obtain ⟨k1, v1⟩ := hd
    rw [List.lookup_cons] at hl
    rw [List.filterMap_cons]
    by_cases hk : (k == k1) = true
    · have hkk : k = k1 := by simpa using hk
      subst hkk
      simp at hl
      subst hl
      simp [hf, List.lookup_cons]
    · simp only [hk] at hl
      rcases hb : f k1 v1 with _ | r1
    <;> simp only [Option.map]
      · exact ih hl
      · rw [List.lookup_cons]
        simp only [hk]
        exact ih hl

theorem lookup_filterMap_entries_none {α β : Type} {l : List (String × α)}
    {f : String → α → Option β} {k : String}
    (hall : ∀ v, f k v = none) :
    (l.filterMap (fun kv => (f kv.1 kv.2).map (fun x => (kv.1, x)))).lookup k = none := by
  induction l with
  | nil => rfl
  | cons hd rest ih =>
    obtain ⟨k1, v1⟩ := hd
    rw [List.filterMap_cons]
    by_cases hk : (k == k1) = true
    · have hkk : k = k1 := by simpa using hk
      subst hkk
      simp only [hall v1, Option.map]
      exact ih
    · rcases hb : f k1 v1 with _ | r1
      · simp only [Option.map]
        exact ih
      · simp only [Option.map]
        rw [List.lookup_cons]
        simp only [hk]
        exact ih

theorem lookup_filterMap_entries_missing {α β : Type} {l : List (String × α)}
    {f : String → α → Option β} {k : String}
    (hl : l.lookup k = none) :
    (l.filterMap (fun kv => (f kv.1 kv.2).map (fun x => (kv.1, x)))).lookup k = none := by
  induction l with
  | nil => rfl
  | cons hd rest ih =>
    obtain ⟨k1, v1⟩ := hd
    rw [List.lookup_cons] at hl
    rw [List.filterMap_cons]
    by_cases hk : (k == k1) = true
    · simp [hk] at hl
    · simp only [hk] at hl
      rcases hb : f k1 v1 with _ | r1
      · exact ih hl
      · simp only [Option.map]
        rw [List.lookup_cons]
        simp only [hk]
        exact ih hl

theorem jsGet_processObject_some {o : Json} {efs : List (String × Json)} {d : DiffResult}
    {vs : FieldValidation} {pre : List String} {key : String} {ev : Json} {r : Json}
    (hl : efs.lookup key = some ev) (hf : processBody d vs pre key ev = some r) :
    jsGet (processObject o (Json.obj efs) d vs pre) key = some r := by
  rw [processObject_obj]
  simpa [jsGet] using lookup_filterMap_entries_some hl hf

theorem jsGet_processObject_none {o : Json} {efs : List (String × Json)} {d : DiffResult}
    {vs : FieldValidation} {pre : List String} {key : String}
    (hall : ∀ v, processBody d vs pre key v = none) :
    jsGet (processObject o (Json.obj efs) d vs pre) key = none := by
  rw [processObject_obj]
  simpa [jsGet] using lookup_filterMap_entries_none (l := efs) hall

theorem jsGet_processObject_missing {o : Json} {efs : List (String × Json)} {d : DiffResult}
    {vs : FieldValidation} {pre : List String} {key : String}
    (hl : efs.lookup key = none) :
    jsGet (processObject o (Json.obj efs) d vs pre) key = none := by
  rw [processObject_obj]
  simpa [jsGet] using lookup_filterMap_entries_missing (f := fun k v => processBody d vs pre k v) hl

/-- The diff node addressed by a nonempty path of keys, descending through
`nested` child trees (and undefined on composite steps without a child tree). -/
def diffAt (d : DiffResult) : List String → Option DiffNode
  | [] => none
  | [k] => d.lookup k
  | k :: rest =>
    match d.lookup k with
    | some node =>
      match node.nested with
      | some n => diffAt n rest
      | none => none
    | none => none

/-- The value of a document at a path of object keys. -/
def getPath (j : Json) : List String → Option Json
  | [] => some j
  | k :: rest =>
    match jsGet j k with
    | some v => getPath v rest
    | none => none

theorem getPath_single (j : Json) (k : String) : getPath j [k] = jsGet j k := by
  simp only [getPath]
  rcases h : jsGet j k with _ | v <;> simp [getPath]

theorem jsGet_eq_none_of_not_contains {j : Json} {k : String}
    (h : (jsObjKeys j).contains k = false) : jsGet j k = none := by
  rcases hg : jsGet j k with _ | v
  · rfl
  · rw [contains_of_jsGet_some hg] at h
    cases h

/-- Along any path that addresses a node of the diff tree, the original
document carries exactly the node's `originalValue` and the enriched document
exactly the node's `value`. -/
theorem diffAt_values :
    ∀ (p : List String) (o e : Json) (path : String) (node : DiffNode),
      diffAt (compareJsonObjects o e path) p = some node →
      getPath o p = node.originalValue ∧ getPath e p = node.value := by
  intro p
  induction p with
  | nil => intro o e path node h; simp [diffAt] at h
  | cons k rest ih =>
    intro o e path node h
    cases rest with
    | nil =>
      rw [show diffAt (compareJsonObjects o e path) [k]
            = (compareJsonObjects o e path).lookup k from rfl, compare_lookup] at h
      rcases compareBody_cases h with ⟨hno, _hye, hnode⟩ | ⟨ofs, efs, ho, he, hnode⟩ |
          ⟨ov, ev, ho, he, _hnb, hnode⟩
      · subst hnode
        refine ⟨?_, ?_⟩
        · rw [getPath_single, jsGet_eq_none_of_not_contains hno]
          rfl
        · rw [getPath_single]
          rfl
      · subst hnode
        refine ⟨?_, ?_⟩
        · rw [getPath_single, ho]; rfl
        · rw [getPath_single, he]; rfl
      · subst hnode
        refine ⟨?_, ?_⟩
        · rw [getPath_single, ho]; rfl
        · rw [getPath_single, he]; rfl
    | cons k2 rest2 =>
      simp only [diffAt] at h
      rcases hl : (compareJsonObjects o e path).lookup k with _ | topnode
      · rw [hl] at h; simp at h
      · rw [hl] at h
        rw [compare_lookup] at hl
        rcases compareBody_cases hl with ⟨_, _, hnode⟩ | ⟨ofs, efs, ho, he, hnode⟩ |
            ⟨ov, ev, _, _, _, hnode⟩
        · subst hnode; simp [DiffNode.nested] at h
        · subst hnode
          simp only [DiffNode.nested] at h
          have := ih (Json.obj ofs) (Json.obj efs) (childPath path k) node h
          refine ⟨?_, ?_⟩
          · simp only [getPath, ho]
            exact this.1
          · simp only [getPath, he]
            exact this.2
        · subst hnode; simp [DiffNode.nested] at h

theorem jsGet_obj_decomp {e : Json} {k : String} {v : Json} (h : jsGet e k = some v) :
    ∃ efs, e = Json.obj efs ∧ efs.lookup k = some v := by
  cases e <;> simp [jsGet] at h
  case obj fs => exact ⟨fs, rfl, h⟩

/-- Every NEW node of a diff tree carries no `originalValue` and no nested
child tree. -/
theorem compare_new_shape :
    ∀ (p : List String) (o e : Json) (path : String) (node : DiffNode),
      diffAt (compareJsonObjects o e path) p = some node →
      node.type = DiffType.NEW →
      node.originalValue = none ∧ node.nested = none := by
  intro p
  induction p with
  | nil => intro o e path node h ht; simp [diffAt] at h
  | cons k rest ih =>
    intro o e path node h ht
    cases rest with
    | nil =>
      rw [show diffAt (compareJsonObjects o e path) [k]
            = (compareJsonObjects o e path).lookup k from rfl, compare_lookup] at h
      rcases compareBody_cases h with ⟨_, _, hnode⟩ | ⟨ofs, efs, _, _, hnode⟩ |
          ⟨ov, ev, _, _, _, hnode⟩
      · subst hnode; exact ⟨rfl, rfl⟩
      · subst hnode
        simp only [DiffNode.type] at ht
        split at ht <;> cases ht
      · subst hnode
        simp only [DiffNode.type] at ht
        split at ht <;> cases ht
    | cons k2 rest2 =>
      simp only [diffAt] at h
      rcases hl : (compareJsonObjects o e path).lookup k with _ | topnode
      · rw [hl] at h; simp at h
      · rw [hl] at h
        rw [compare_lookup] at hl
        rcases compareBody_cases hl with ⟨_, _, hnode⟩ | ⟨ofs, efs, _, _, hnode⟩ |
            ⟨ov, ev, _, _, _, hnode⟩
        · subst hnode; simp [DiffNode.nested] at h
        · subst hnode
          simp only [DiffNode.nested] at h
          exact ih (Json.obj ofs) (Json.obj efs) (childPath path k) node h ht
        · subst hnode; simp [DiffNode.nested] at h

theorem jsOrElseEmptyObj_obj (ofs : List (String × Json)) :
    jsOrElseEmptyObj (some (Json.obj ofs)) = Json.obj ofs := rfl

/-- A MODIFIED node whose dot-joined path is DECLINED makes the merge store
the node's `originalValue` at that path, whatever the decisions stored
anywhere else (including at its ancestors) are. -/
theorem merge_modified_declined :
    ∀ (p : List String) (o e : Json) (path : String) (vs : FieldValidation)
      (pre : List String) (node : DiffNode),
      diffAt (compareJsonObjects o e path) p = some node →
      node.type = DiffType.MODIFIED →
      lookupState vs (joinPath (pre ++ p)) = ValidationState.DECLINED →
      getPath (processObject o e (compareJsonObjects o e path) vs pre) p
        = node.originalValue := by
  intro p
  induction p with
  | nil => intro o e path vs pre node h ht hs; simp [diffAt] at h
  | cons k rest ih =>
    intro o e path vs pre node h ht hs
    cases rest with
    | nil =>
      rw [show diffAt (compareJsonObjects o e path) [k]
            = (compareJsonObjects o e path).lookup k from rfl] at h
      have hb := h
      rw [compare_lookup] at hb
      rcases compareBody_cases hb with ⟨_, _, hnode⟩ | ⟨ofs, efs, ho, he, hnode⟩ |
          ⟨ov, ev, ho, he, _, hnode⟩
      · subst hnode; simp [DiffNode.type] at ht
      · have hc : diffAnyChanged (compareJsonObjects (Json.obj ofs) (Json.obj efs)
            (childPath path k)) = true := by
          by_contra hcf
          rw [hnode] at ht
          simp [DiffNode.type, hcf] at ht
        rw [hc] at hnode
        simp at hnode
        subst hnode
        obtain ⟨efs0, he0, hlook⟩ := jsGet_obj_decomp he
        subst he0
        have hpb : processBody (compareJsonObjects o (Json.obj efs0) path) vs pre k (Json.obj efs)
            = some (Json.obj ofs) := by
          simp only [processBody, h, hs]
          simp
        rw [getPath_single, jsGet_processObject_some hlook hpb]
        rfl
      · have hbq : beqJson ov ev = false := by
          by_contra hbf
          rw [hnode] at ht
          simp [DiffNode.type] at ht
          rw [eq_true_of_ne_false (fun hx => hbf hx)] at ht
          simp at ht
        rw [hbq] at hnode
        simp at hnode
        subst hnode
        obtain ⟨efs0, he0, hlook⟩ := jsGet_obj_decomp he
        subst he0
        have hpb : processBody (compareJsonObjects o (Json.obj efs0) path) vs pre k ev
            = some ov := by
          simp only [processBody, h, hs]
          simp
        rw [getPath_single, jsGet_processObject_some hlook hpb]
        rfl
    | cons k2 rest2 =>
      simp only [diffAt] at h
      rcases hl : (compareJsonObjects o e path).lookup k with _ | topnode
      · rw [hl] at h; simp at h
      · rw [hl] at h
        have hb := hl
        rw [compare_lookup] at hb
        rcases compareBody_cases hb with ⟨_, _, hnode⟩ | ⟨ofs, efs, ho, he, hnode⟩ |
            ⟨ov, ev, _, _, _, hnode⟩
        · subst hnode; simp [DiffNode.nested] at h
        · subst hnode
          simp only [DiffNode.nested] at h
          obtain ⟨efs0, he0, hlook⟩ := jsGet_obj_decomp he
          subst he0
          have happ : (pre ++ [k]) ++ (k2 :: rest2) = pre ++ (k :: k2 :: rest2) := by simp
          by_cases hc : diffAnyChanged (compareJsonObjects (Json.obj ofs) (Json.obj efs)
              (childPath path k)) = true
          · by_cases hdecl : lookupState vs (joinPath (pre ++ [k])) = ValidationState.DECLINED
            · -- declined composite ancestor: whole-subtree revert
              have hpb : processBody (compareJsonObjects o (Json.obj efs0) path) vs pre k
                  (Json.obj efs) = some (Json.obj ofs) := by
                simp [processBody, hl, hc, hdecl]
              simp only [getPath, jsGet_processObject_some hlook hpb]
              exact (diffAt_values (k2 :: rest2) (Json.obj ofs) (Json.obj efs)
                (childPath path k) node h).1
            · have hpb : processBody (compareJsonObjects o (Json.obj efs0) path) vs pre k
                  (Json.obj efs)
                  = some (processObject (Json.obj ofs) (Json.obj efs)
                      (compareJsonObjects (Json.obj ofs) (Json.obj efs) (childPath path k)) vs
                      (pre ++ [k])) := by
                simp [processBody, hl, hc, hdecl, jsIsObjLike, jsOrElseEmptyObj_obj]
              simp only [getPath, jsGet_processObject_some hlook hpb]
              exact ih (Json.obj ofs) (Json.obj efs) (childPath path k) vs (pre ++ [k]) node h ht
                (by rw [happ]; exact hs)
          · have hpb : processBody (compareJsonObjects o (Json.obj efs0) path) vs pre k
                (Json.obj efs)
                = some (processObject (Json.obj ofs) (Json.obj efs)
                    (compareJsonObjects (Json.obj ofs) (Json.obj efs) (childPath path k)) vs
                    (pre ++ [k])) := by
              simp [processBody, hl, hc, jsIsObjLike, jsOrElseEmptyObj_obj]
            simp only [getPath, jsGet_processObject_some hlook hpb]
            exact ih (Json.obj ofs) (Json.obj efs) (childPath path k) vs (pre ++ [k]) node h ht
              (by rw [happ]; exact hs)
        · subst hnode; simp [DiffNode.nested] at h

theorem diffAt_cons_of_ne_nil {d : DiffResult} {k : String} {q : List String} (hq : q ≠ [])
    {topnode : DiffNode} {n : DiffResult} (hl : d.lookup k = some topnode)
    (hn : topnode.nested = some n) : diffAt d (k :: q) = diffAt n q := by
  cases q with
  | nil => exact absurd rfl hq
  | cons a b => simp [diffAt, hl, hn]

/-- A NEW node whose dot-joined path is DECLINED is omitted from the merge
result: the generated document has no value at that path, whatever the other
stored decisions are. -/
theorem merge_new_declined :
    ∀ (p : List String) (o e : Json) (path : String) (vs : FieldValidation)
      (pre : List String) (node : DiffNode),
      diffAt (compareJsonObjects o e path) p = some node →
      node.type = DiffType.NEW →
      lookupState vs (joinPath (pre ++ p)) = ValidationState.DECLINED →
      getPath (processObject o e (compareJsonObjects o e path) vs pre) p = none := by
  intro p
  induction p with
  | nil => intro o e path vs pre node h ht hs; simp [diffAt] at h
  | cons k rest ih =>
    intro o e path vs pre node h ht hs
    cases rest with
    | nil =>
      rw [show diffAt (compareJsonObjects o e path) [k]
            = (compareJsonObjects o e path).lookup k from rfl] at h
      have hb := h
      rw [compare_lookup] at hb
      rcases compareBody_cases hb with ⟨_, hye, hnode⟩ | ⟨ofs, efs, _, _, hnode⟩ |
          ⟨ov, ev, _, _, _, hnode⟩
      · obtain ⟨ev0, hev0⟩ := jsGet_isSome_of_contains hye
        obtain ⟨efs0, he0, _⟩ := jsGet_obj_decomp hev0
        subst he0
        subst hnode
        have hall : ∀ v, processBody (compareJsonObjects o (Json.obj efs0) path) vs pre k v
            = none := by
          intro v
          simp [processBody, h, hs]
        rw [getPath_single, jsGet_processObject_none hall]
      · subst hnode
        simp only [DiffNode.type] at ht
        split at ht <;> cases ht
      · subst hnode
        simp only [DiffNode.type] at ht
        split at ht <;> cases ht
    | cons k2 rest2 =>
      simp only [diffAt] at h
      rcases hl : (compareJsonObjects o e path).lookup k with _ | topnode
      · rw [hl] at h; simp at h
      · rw [hl] at h
        have hb := hl
        rw [compare_lookup] at hb
        rcases compareBody_cases hb with ⟨_, _, hnode⟩ | ⟨ofs, efs, ho, he, hnode⟩ |
            ⟨ov, ev, _, _, _, hnode⟩
        · subst hnode; simp [DiffNode.nested] at h
        · subst hnode
          simp only [DiffNode.nested] at h
          obtain ⟨efs0, he0, hlook⟩ := jsGet_obj_decomp he
          subst he0
          have happ : (pre ++ [k]) ++ (k2 :: rest2) = pre ++ (k :: k2 :: rest2) := by simp
          by_cases hc : diffAnyChanged (compareJsonObjects (Json.obj ofs) (Json.obj efs)
              (childPath path k)) = true
          · by_cases hdecl : lookupState vs (joinPath (pre ++ [k])) = ValidationState.DECLINED
            · have hpb : processBody (compareJsonObjects o (Json.obj efs0) path) vs pre k
                  (Json.obj efs) = some (Json.obj ofs) := by
                simp [processBody, hl, hc, hdecl]
              simp only [getPath, jsGet_processObject_some hlook hpb]
              have hov := (diffAt_values (k2 :: rest2) (Json.obj ofs) (Json.obj efs)
                (childPath path k) node h).1
              have hshape := compare_new_shape (k2 :: rest2) (Json.obj ofs) (Json.obj efs)
                (childPath path k) node h ht
              exact hov.trans hshape.1
            · have hpb : processBody (compareJsonObjects o (Json.obj efs0) path) vs pre k
                  (Json.obj efs)
                  = some (processObject (Json.obj ofs) (Json.obj efs)
                      (compareJsonObjects (Json.obj ofs) (Json.obj efs) (childPath path k)) vs
                      (pre ++ [k])) := by
                simp [processBody, hl, hc, hdecl, jsIsObjLike, jsOrElseEmptyObj_obj]
              simp only [getPath, jsGet_processObject_some hlook hpb]
              exact ih (Json.obj ofs) (Json.obj efs) (childPath path k) vs (pre ++ [k]) node h ht
                (by rw [happ]; exact hs)
          · have hpb : processBody (compareJsonObjects o (Json.obj efs0) path) vs pre k
                (Json.obj efs)
                = some (processObject (Json.obj ofs) (Json.obj efs)
                    (compareJsonObjects (Json.obj ofs) (Json.obj efs) (childPath path k)) vs
                    (pre ++ [k])) := by
              simp [processBody, hl, hc, jsIsObjLike, jsOrElseEmptyObj_obj]
            simp only [getPath, jsGet_processObject_some hlook hpb]
            exact ih (Json.obj ofs) (Json.obj efs) (childPath path k) vs (pre ++ [k]) node h ht
              (by rw [happ]; exact hs)
        · subst hnode; simp [DiffNode.nested] at h

/-- A NEW node whose own dot-joined path is not DECLINED receives the full
enriched value in the merge result, provided no strict ancestor on its path
is a MODIFIED node with a DECLINED decision (such an ancestor would revert
its whole subtree). -/
theorem merge_new_included :
    ∀ (p : List String) (o e : Json) (path : String) (vs : FieldValidation)
      (pre : List String) (node : DiffNode),
      diffAt (compareJsonObjects o e path) p = some node →
      node.type = DiffType.NEW →
      lookupState vs (joinPath (pre ++ p)) ≠ ValidationState.DECLINED →
      (∀ (q r : List String) (anc : DiffNode), p = q ++ r → q ≠ [] → r ≠ [] →
        diffAt (compareJsonObjects o e path) q = some anc →
        anc.type = DiffType.MODIFIED →
        lookupState vs (joinPath (pre ++ q)) ≠ ValidationState.DECLINED) →
      getPath (processObject o e (compareJsonObjects o e path) vs pre) p = getPath e p := by
  intro p
  induction p with
  | nil => intro o e path vs pre node h ht hs hanc; simp [diffAt] at h
  | cons k rest ih =>
    intro o e path vs pre node h ht hs hanc
    cases rest with
    | nil =>
      rw [show diffAt (compareJsonObjects o e path) [k]
            = (compareJsonObjects o e path).lookup k from rfl] at h
      have hb := h
      rw [compare_lookup] at hb
      rcases compareBody_cases hb with ⟨_, hye, hnode⟩ | ⟨ofs, efs, _, _, hnode⟩ |
          ⟨ov, ev, _, _, _, hnode⟩
      · obtain ⟨ev0, hev0⟩ := jsGet_isSome_of_contains hye
        obtain ⟨efs0, he0, hlook⟩ := jsGet_obj_decomp hev0
        subst he0
        subst hnode
        have hpb : processBody (compareJsonObjects o (Json.obj efs0) path) vs pre k ev0
            = some ev0 := by
          rcases hst : lookupState vs (joinPath (pre ++ [k])) with _ | _ | _
          · simp [processBody, h, hst]
          · simp [processBody, h, hst]
          · exact absurd hst hs
        rw [getPath_single, getPath_single, jsGet_processObject_some hlook hpb, hev0]
      · subst hnode
        simp only [DiffNode.type] at ht
        split at ht <;> cases ht
      · subst hnode
        simp only [DiffNode.type] at ht
        split at ht <;> cases ht
    | cons k2 rest2 =>
      simp only [diffAt] at h
      rcases hl : (compareJsonObjects o e path).lookup k with _ | topnode
      · rw [hl] at h; simp at h
      · rw [hl] at h
        have hb := hl
        rw [compare_lookup] at hb
        rcases compareBody_cases hb with ⟨_, _, hnode⟩ | ⟨ofs, efs, ho, he, hnode⟩ |
            ⟨ov, ev, _, _, _, hnode⟩
        · subst hnode; simp [DiffNode.nested] at h
        · subst hnode
          simp only [DiffNode.nested] at h
          obtain ⟨efs0, he0, hlook⟩ := jsGet_obj_decomp he
          subst he0
          have happ : (pre ++ [k]) ++ (k2 :: rest2) = pre ++ (k :: k2 :: rest2) := by simp
          have hanc2 : ∀ (q r : List String) (anc : DiffNode), k2 :: rest2 = q ++ r →
              q ≠ [] → r ≠ [] →
              diffAt (compareJsonObjects (Json.obj ofs) (Json.obj efs) (childPath path k)) q
                = some anc →
              anc.type = DiffType.MODIFIED →
              lookupState vs (joinPath ((pre ++ [k]) ++ q)) ≠ ValidationState.DECLINED := by
            intro q r anc hqr hq hr hdq hanctype
            have hdq2 : diffAt (compareJsonObjects o (Json.obj efs0) path) (k :: q) = some anc := by
              rw [diffAt_cons_of_ne_nil hq hl (by rfl)]
              exact hdq
            have happq : (pre ++ [k]) ++ q = pre ++ (k :: q) := by simp
            rw [happq]
            exact hanc (k :: q) r anc (by rw [hqr]; rfl) (by simp) hr hdq2 hanctype
          by_cases hc : diffAnyChanged (compareJsonObjects (Json.obj ofs) (Json.obj efs)
              (childPath path k)) = true
          · have hdecl : lookupState vs (joinPath (pre ++ [k])) ≠ ValidationState.DECLINED := by
              have htop : (DiffNode.mk
                  (if diffAnyChanged (compareJsonObjects (Json.obj ofs) (Json.obj efs)
                      (childPath path k)) = true
                   then DiffType.MODIFIED else DiffType.UNCHANGED)
                  (some (Json.obj efs)) (some (Json.obj ofs))
                  (some (compareJsonObjects (Json.obj ofs) (Json.obj efs)
                    (childPath path k)))).type = DiffType.MODIFIED := by
                simp [DiffNode.type, hc]
              exact hanc [k] (k2 :: rest2) _ rfl (by simp) (by simp)
                (by rw [show diffAt (compareJsonObjects o (Json.obj efs0) path) [k]
                      = (compareJsonObjects o (Json.obj efs0) path).lookup k from rfl, hl])
                htop
            have hpb : processBody (compareJsonObjects o (Json.obj efs0) path) vs pre k
                (Json.obj efs)
                = some (processObject (Json.obj ofs) (Json.obj efs)
                    (compareJsonObjects (Json.obj ofs) (Json.obj efs) (childPath path k)) vs
                    (pre ++ [k])) := by
              simp [processBody, hl, hc, hdecl, jsIsObjLike, jsOrElseEmptyObj_obj]
            simp only [getPath, jsGet_processObject_some hlook hpb, he]
            exact ih (Json.obj ofs) (Json.obj efs) (childPath path k) vs (pre ++ [k]) node h ht
              (by rw [happ]; exact hs) hanc2
          · have hpb : processBody (compareJsonObjects o (Json.obj efs0) path) vs pre k
                (Json.obj efs)
                = some (processObject (Json.obj ofs) (Json.obj efs)
                    (compareJsonObjects (Json.obj ofs) (Json.obj efs) (childPath path k)) vs
                    (pre ++ [k])) := by
              simp [processBody, hl, hc, jsIsObjLike, jsOrElseEmptyObj_obj]
            simp only [getPath, jsGet_processObject_some hlook hpb, he]
            exact ih (Json.obj ofs) (Json.obj efs) (childPath path k) vs (pre ++ [k]) node h ht
              (by rw [happ]; exact hs) hanc2
        · subst hnode; simp [DiffNode.nested] at h

theorem processObject_null (o : Json) (d : DiffResult) (vs : FieldValidation)
    (pre : List String) : processObject o Json.null d vs pre = Json.null := by
  rw [processObject.eq_def]

theorem processObject_not_obj {o e : Json} {d : DiffResult} {vs : FieldValidation}
    {pre : List String} (he : ∀ fs, e ≠ Json.obj fs) :
    processObject o e d vs pre = e := by
  rw [processObject.eq_def]
  cases e with
  | obj fs => exact absurd rfl (he fs)
  | null => rfl
  | bool b => rfl
  | num n => rfl
  | str s => rfl
  | arr xs => rfl

theorem sizeOf_diffresult_pos (d : DiffResult) : 0 < sizeOf d := by
  cases d <;> simp <;> omega

/-- Two stores assigning the same effective (default-PENDING) state to every
path produce the same merge result. -/
theorem processObject_congr_aux (vs1 vs2 : FieldValidation)
    (hvs : ∀ q, lookupState vs1 q = lookupState vs2 q) :
    ∀ (N : Nat) (d : DiffResult), sizeOf d ≤ N → ∀ (o e : Json) (pre : List String),
      processObject o e d vs1 pre = processObject o e d vs2 pre := by
  intro N
  induction N with
  | zero =>
    intro d hd
    have := sizeOf_diffresult_pos d
    omega
  | succ N ihN =>
    intro d hd o e pre
    cases e with
    | obj fields =>
      rw [processObject_obj, processObject_obj]
      congr 1
      apply List.filterMap_congr
      intro kv _
      obtain ⟨key, ev⟩ := kv
      have hpb : processBody d vs1 pre key ev = processBody d vs2 pre key ev := by
        simp only [processBody]
        rcases hl : d.lookup key with _ | node
        · rfl
        · obtain ⟨t, v, ov, nst⟩ := node
          have hsz := lookup_sizeOf _ _ _ hl
          cases t <;> rcases nst with _ | n <;>
            simp only [hvs (joinPath (pre ++ [key]))] <;>
            (try rfl) <;>
            (have hn : sizeOf n ≤ N := by simp at hsz; omega) <;>
            rw [ihN n hn]
      rw [hpb]
    | null => rw [processObject_null, processObject_null]
    | bool b => rw [processObject_not_obj (by intro fs h; cases h),
        processObject_not_obj (by intro fs h; cases h)]
    | num n => rw [processObject_not_obj (by intro fs h; cases h),
        processObject_not_obj (by intro fs h; cases h)]
    | str s => rw [processObject_not_obj (by intro fs h; cases h),
        processObject_not_obj (by intro fs h; cases h)]
    | arr xs => rw [processObject_not_obj (by intro fs h; cases h),
        processObject_not_obj (by intro fs h; cases h)]

/-- Two stores assigning the same effective (default-PENDING) state to every
path produce the same pending-field list. -/
theorem getAllPendingFields_congr_aux (vs1 vs2 : FieldValidation)
    (hvs : ∀ q, lookupState vs1 q = lookupState vs2 q) :
    ∀ (N : Nat) (d : DiffResult), sizeOf d ≤ N → ∀ (path : List String),
      getAllPendingFields d vs1 path = getAllPendingFields d vs2 path := by
  intro N
  induction N with
  | zero =>
    intro d hd
    have := sizeOf_diffresult_pos d
    omega
  | succ N ihN =>
    intro d hd path
    cases d with
    | nil => rw [getAllPendingFields.eq_def, getAllPendingFields.eq_def]
    | cons hd0 rest =>
      obtain ⟨key, node⟩ := hd0
      obtain ⟨t, v, ov, nst⟩ := node
      have hszrest : sizeOf rest ≤ N := by simp at hd; omega
      rw [getAllPendingFields.eq_def, getAllPendingFields.eq_def]
      simp only [hvs (joinPath (path ++ [key]))]
      rw [ihN rest hszrest path]
      rcases nst with _ | n
      · rfl
      · have hn : sizeOf n ≤ N := by simp at hd; omega
        simp only [ihN n hn (path ++ [key])]

/-- Every node of a diff tree, recursively, has kind UNCHANGED. -/
def allUnchangedDiff : DiffResult → Bool
  | [] => true
  | (_, DiffNode.mk t _ _ nst) :: rest =>
    (t == DiffType.UNCHANGED) &&
      (match nst with
       | some n => allUnchangedDiff n
       | none => true) &&
      allUnchangedDiff rest
termination_by d => sizeOf d
decreasing_by
  all_goals simp
  all_goals omega

theorem allUnchangedDiff_iff {d : DiffResult} :
    allUnchangedDiff d = true ↔
      ∀ kv ∈ d, kv.2.type = DiffType.UNCHANGED ∧
        (∀ n, kv.2.nested = some n → allUnchangedDiff n = true) := by
  induction d with
  | nil => simp [allUnchangedDiff]
  | cons hd rest ih =>
    obtain ⟨key, node⟩ := hd
    obtain ⟨t, v, ov, nst⟩ := node
    rw [allUnchangedDiff.eq_def]
    simp only [Bool.and_eq_true, beq_iff_eq, List.mem_cons, ih]
    constructor
    · rintro ⟨⟨ht, hn⟩, hrest⟩
      intro kv hkv
      rcases hkv with heq | hmem
      · subst heq
        refine ⟨ht, ?_⟩
        intro n hsome
        simp only [DiffNode.nested] at hsome
        cases nst with
        | none => cases hsome
        | some n0 =>
          simp at hsome
          subst hsome
          simpa using hn
      · exact hrest kv hmem
    · intro hall
      have hhd := hall (key, DiffNode.mk t v ov nst) (Or.inl rfl)
      refine ⟨⟨hhd.1, ?_⟩, fun kv hkv => hall kv (Or.inr hkv)⟩
      cases nst with
      | none => simp
      | some n0 => simpa using hhd.2 n0 (by rfl)

theorem diffAnyChanged_eq_false {d : DiffResult} (h : allUnchangedDiff d = true) :
    diffAnyChanged d = false := by
  rw [allUnchangedDiff_iff] at h
  simp only [diffAnyChanged, List.any_eq_false]
  intro kv hkv
  simp [(h kv hkv).1]

theorem allUnchangedDiff_lookup {d : DiffResult} {k : String} {node : DiffNode}
    (h : allUnchangedDiff d = true) (hl : d.lookup k = some node) :
    node.type = DiffType.UNCHANGED ∧ (∀ n, node.nested = some n → allUnchangedDiff n = true) :=
  (allUnchangedDiff_iff.mp h) (k, node) (lookup_mem hl)

theorem sizeOf_json_pos (j : Json) : 0 < sizeOf j := by
  cases j <;> simp <;> omega

theorem beqJson_refl (a : Json) : beqJson a a = true := beqJson_eq_true_iff.mpr rfl

/-- Diffing a document against itself yields a tree of UNCHANGED nodes only. -/
theorem compare_self_allUnchanged_aux :
    ∀ (N : Nat) (o : Json), sizeOf o ≤ N → ∀ (path : String),
      allUnchangedDiff (compareJsonObjects o o path) = true := by
  intro N
  induction N with
  | zero =>
    intro o ho
    have := sizeOf_json_pos o
    omega
  | succ N ihN =>
    intro o ho path
    rw [allUnchangedDiff_iff]
    intro kv hkv
    obtain ⟨k, node⟩ := kv
    have hl := compare_mem_iff_lookup.mp hkv
    rw [compare_lookup] at hl
    rcases compareBody_cases hl with ⟨hno, hye, _⟩ | ⟨ofs, efs, hgo, hge, hnode⟩ |
        ⟨ov, ev, hgo, hge, _, hnode⟩
    · rw [hno] at hye; cases hye
    · have hoe : ofs = efs := by
        have := hgo.symm.trans hge
        simpa using this
      subst hoe
      have hsz : sizeOf (Json.obj ofs) ≤ N := by
        have := jsGet_sizeOf hgo
        omega
      have hau := ihN (Json.obj ofs) hsz (childPath path k)
      subst hnode
      refine ⟨?_, ?_⟩
      · simp [DiffNode.type, diffAnyChanged_eq_false hau]
      · intro n hn
        simp only [DiffNode.nested] at hn
        simp at hn
        subst hn
        exact hau
    · have hoe : ov = ev := by
        have := hgo.symm.trans hge
        simpa using this
      subst hoe
      subst hnode
      refine ⟨?_, ?_⟩
      · simp [DiffNode.type, beqJson_refl]
      · intro n hn
        simp [DiffNode.nested] at hn

theorem filterMap_id_of_mem {α : Type} {l : List α} {f : α → Option α}
    (h : ∀ x ∈ l, f x = some x) : l.filterMap f = l := by
  induction l with
  | nil => rfl
  | cons a l ih =>
    rw [List.filterMap_cons, h a (List.mem_cons_self a l)]
    rw [ih (fun x hx => h x (List.mem_cons_of_mem a hx))]

/-- Merging against a fully UNCHANGED diff tree returns the enriched document
unchanged, whatever the store and the original document are. -/
theorem processObject_allUnchanged_aux :
    ∀ (N : Nat) (d : DiffResult), sizeOf d ≤ N → allUnchangedDiff d = true →
      ∀ (o e : Json) (vs : FieldValidation) (pre : List String),
        processObject o e d vs pre = e := by
  intro N
  induction N with
  | zero =>
    intro d hd
    have := sizeOf_diffresult_pos d
    omega
  | succ N ihN =>
    intro d hd hau o e vs pre
    cases e with
    | obj fields =>
      rw [processObject_obj]
      congr 1
      apply filterMap_id_of_mem
      intro kv _
      obtain ⟨key, ev⟩ := kv
      have hpb : processBody d vs pre key ev = some ev := by
        simp only [processBody]
        rcases hl : d.lookup key with _ | node
        · rfl
        · obtain ⟨hty, hnst⟩ := allUnchangedDiff_lookup hau hl
          obtain ⟨t, v, ov, nst⟩ := node
          simp only [DiffNode.type] at hty
          subst hty
          rcases nst with _ | n
          · rfl
          · have hand : allUnchangedDiff n = true := hnst n rfl
            have hsz := lookup_sizeOf _ _ _ hl
            have hn : sizeOf n ≤ N := by simp at hsz; omega
            show (if jsIsObjLike ev = true then
                some (processObject (jsOrElseEmptyObj ov) ev n vs (pre ++ [key]))
              else some ev) = some ev
            rw [ihN n hn hand]
            split <;> rfl
      rw [hpb]
      rfl
    | null => rw [processObject_null]
    | bool b => rw [processObject_not_obj (by intro fs h; cases h)]
    | num n => rw [processObject_not_obj (by intro fs h; cases h)]
    | str s => rw [processObject_not_obj (by intro fs h; cases h)]
    | arr xs => rw [processObject_not_obj (by intro fs h; cases h)]

theorem diffAnyChanged_iff {d : DiffResult} :
    diffAnyChanged d = true ↔ ∃ kv ∈ d, kv.2.type ≠ DiffType.UNCHANGED := by
  simp [diffAnyChanged, List.any_eq_true, bne_iff_ne]

theorem diffAnyChangedDeep_iff {d : DiffResult} :
    diffAnyChangedDeep d = true ↔
      ∃ kv ∈ d, (kv.2.type ≠ DiffType.UNCHANGED ∨
        ∃ n, kv.2.nested = some n ∧ diffAnyChangedDeep n = true) := by
  induction d with
  | nil => simp [diffAnyChangedDeep]
  | cons hd rest ih =>
    obtain ⟨key, node⟩ := hd
    obtain ⟨t, v, ov, nst⟩ := node
    rw [diffAnyChangedDeep.eq_def]
    simp only [Bool.or_eq_true, bne_iff_ne, List.mem_cons, ih]
    constructor
    · rintro ((ht | hn) | hrest)
      · exact ⟨(key, DiffNode.mk t v ov nst), Or.inl rfl, Or.inl ht⟩
      · rcases nst with _ | n0
        · simp at hn
        · exact ⟨(key, DiffNode.mk t v ov (some n0)), Or.inl rfl,
            Or.inr ⟨n0, rfl, by simpa using hn⟩⟩
      · obtain ⟨kv, hmem, hprop⟩ := hrest
        exact ⟨kv, Or.inr hmem, hprop⟩
    · rintro ⟨kv, hmem | hmem, hprop⟩
      · subst hmem
        rcases hprop with ht | ⟨n0, hn0, hdeep⟩
        · exact Or.inl (Or.inl ht)
        · simp only [DiffNode.nested] at hn0
          rcases nst with _ | n1
          · cases hn0
          · simp at hn0
            subst hn0
            exact Or.inl (Or.inr (by simpa using hdeep))
      · exact Or.inr ⟨kv, hmem, hprop⟩

/-- For trees produced by the diff engine, "some direct child changed" and
"some descendant changed" coincide: a changed descendant forces every
ancestor on its path to be MODIFIED. -/
theorem compare_deep_eq_flat_aux :
    ∀ (N : Nat) (o e : Json), sizeOf o + sizeOf e ≤ N → ∀ (path : String),
      diffAnyChangedDeep (compareJsonObjects o e path)
        = diffAnyChanged (compareJsonObjects o e path) := by
  intro N
  induction N with
  | zero =>
    intro o e ho
    have := sizeOf_json_pos o
    have := sizeOf_json_pos e
    omega
  | succ N ihN =>
    intro o e hsz path
    have hiff : diffAnyChangedDeep (compareJsonObjects o e path) = true
        ↔ diffAnyChanged (compareJsonObjects o e path) = true := by
      constructor
      · intro hdeep
        rw [diffAnyChangedDeep_iff] at hdeep
        obtain ⟨⟨k, node⟩, hmem, hprop⟩ := hdeep
        rw [diffAnyChanged_iff]
        refine ⟨(k, node), hmem, ?_⟩
        rcases hprop with ht | ⟨n, hn, hdeepn⟩
        · exact ht
        · have hl := compare_mem_iff_lookup.mp hmem
          rw [compare_lookup] at hl
          rcases compareBody_cases hl with ⟨_, _, hnode⟩ | ⟨ofs, efs, hgo, hge, hnode⟩ |
              ⟨ov, ev, _, _, _, hnode⟩
          · subst hnode; simp [DiffNode.nested] at hn
          · subst hnode
            simp only [DiffNode.nested] at hn
            simp at hn
            subst hn
            have hszn : sizeOf (Json.obj ofs) + sizeOf (Json.obj efs) ≤ N := by
              have h1 := jsGet_sizeOf hgo
              have h2 := jsGet_sizeOf hge
              omega
            rw [ihN _ _ hszn (childPath path k)] at hdeepn
            simp [DiffNode.type, hdeepn]
          · subst hnode; simp [DiffNode.nested] at hn
      · intro hflat
        rw [diffAnyChanged_iff] at hflat
        obtain ⟨kv, hmem, ht⟩ := hflat
        rw [diffAnyChangedDeep_iff]
        exact ⟨kv, hmem, Or.inl ht⟩
    cases hdeep : diffAnyChangedDeep (compareJsonObjects o e path) <;>
      cases hflat : diffAnyChanged (compareJsonObjects o e path)
    · rfl
    · rw [hdeep] at hiff
      rw [hflat] at hiff
      simp at hiff
    · rw [hdeep] at hiff
      rw [hflat] at hiff
      simp at hiff
    · rfl

theorem getAllPendingFields_mem_of_entry :
    ∀ (d : DiffResult) (vs : FieldValidation) (pre : List String) (key : String)
      (node : DiffNode),
      (key, node) ∈ d → key ≠ "@type" → jsIsPrimitiveOpt node.value = true →
      lookupState vs (joinPath (pre ++ [key])) = ValidationState.PENDING →
      (node.type = DiffType.NEW ∨ node.type = DiffType.MODIFIED) →
      joinPath (pre ++ [key]) ∈ getAllPendingFields d vs pre := by
  intro d
  induction d with
  | nil => intro vs pre key node hmem; simp at hmem
  | cons hd rest ih =>
    intro vs pre key node hmem hkey hprim hst hty
    obtain ⟨k0, node0⟩ := hd
    obtain ⟨t0, v0, ov0, nst0⟩ := node0
    rw [getAllPendingFields.eq_def]
    simp only [List.mem_append]
    rcases List.mem_cons.mp hmem with heq | htl
    · left
      have hk0 : k0 = key := (congrArg Prod.fst heq).symm
      subst hk0
      have hnode0 : node = DiffNode.mk t0 v0 ov0 nst0 := congrArg Prod.snd heq
      subst hnode0
      simp only [DiffNode.value, DiffNode.type] at hprim hty
      simp [hkey, hprim, hst, hty]
    · right
      exact ih vs pre key node htl hkey hprim hst hty

theorem getAllPendingFields_mem_of_nested :
    ∀ (d : DiffResult) (vs : FieldValidation) (pre : List String) (key : String)
      (node : DiffNode) (n : DiffResult) (x : String),
      (key, node) ∈ d → key ≠ "@type" → node.nested = some n →
      jsIsArrOpt node.value = false →
      x ∈ getAllPendingFields n vs (pre ++ [key]) →
      x ∈ getAllPendingFields d vs pre := by
  intro d
  induction d with
  | nil => intro vs pre key node n x hmem; simp at hmem
  | cons hd rest ih =>
    intro vs pre key node n x hmem hkey hnst harr hx
    obtain ⟨k0, node0⟩ := hd
    obtain ⟨t0, v0, ov0, nst0⟩ := node0
    rw [getAllPendingFields.eq_def]
    simp only [List.mem_append]
    rcases List.mem_cons.mp hmem with heq | htl
    · left
      have hk0 : k0 = key := (congrArg Prod.fst heq).symm
      subst hk0
      have hnode0 : node = DiffNode.mk t0 v0 ov0 nst0 := congrArg Prod.snd heq
      subst hnode0
      simp only [DiffNode.value, DiffNode.nested] at harr hnst
      subst hnst
      simp [hkey, harr]
      right
      exact hx
    · right
      exact ih vs pre key node n x htl hkey hnst harr hx

/-- A primitive-valued NEW/MODIFIED leaf whose effective state is PENDING
contributes its dot-joined path to the pending-field collection, at any depth
(provided no segment of its path is the excluded key `"@type"`). -/
theorem collect_pending_deep :
    ∀ (p : List String) (o e : Json) (path : String) (vs : FieldValidation)
      (pre : List String) (node : DiffNode),
      diffAt (compareJsonObjects o e path) p = some node →
      node.nested = none →
      jsIsPrimitiveOpt node.value = true →
      (node.type = DiffType.NEW ∨ node.type = DiffType.MODIFIED) →
      lookupState vs (joinPath (pre ++ p)) = ValidationState.PENDING →
      (∀ k ∈ p, k ≠ "@type") →
      joinPath (pre ++ p) ∈ getAllPendingFields (compareJsonObjects o e path) vs pre := by
  intro p
  induction p with
  | nil => intro o e path vs pre node h; simp [diffAt] at h
  | cons k rest ih =>
    intro o e path vs pre node h hleaf hprim hty hst hns
    cases rest with
    | nil =>
      rw [show diffAt (compareJsonObjects o e path) [k]
            = (compareJsonObjects o e path).lookup k from rfl] at h
      exact getAllPendingFields_mem_of_entry _ vs pre k node
        (compare_mem_iff_lookup.mpr h) (hns k (by simp)) hprim hst hty
    | cons k2 rest2 =>
      simp only [diffAt] at h
      rcases hl : (compareJsonObjects o e path).lookup k with _ | topnode
      · rw [hl] at h; simp at h
      · rw [hl] at h
        have hb := hl
        rw [compare_lookup] at hb
        rcases compareBody_cases hb with ⟨_, _, hnode⟩ | ⟨ofs, efs, hgo, hge, hnode⟩ |
            ⟨ov, ev, _, _, _, hnode⟩
        · subst hnode; simp [DiffNode.nested] at h
        · subst hnode
          simp only [DiffNode.nested] at h
          have hx := ih (Json.obj ofs) (Json.obj efs) (childPath path k) vs (pre ++ [k]) node h
            hleaf hprim hty
            (by rw [show (pre ++ [k]) ++ (k2 :: rest2) = pre ++ (k :: k2 :: rest2) by simp]
                exact hst)
            (fun k3 hk3 => hns k3 (List.mem_cons_of_mem k hk3))
          have := getAllPendingFields_mem_of_nested (compareJsonObjects o e path) vs pre k
            _ _ _ (compare_mem_iff_lookup.mpr hl) (hns k (by simp)) (by rfl)
            (by simp [DiffNode.value, jsIsArrOpt]) hx
          rw [show (pre ++ [k]) ++ (k2 :: rest2) = pre ++ (k :: k2 :: rest2) by simp] at this
          exact this
        · subst hnode; simp [DiffNode.nested] at h

/-- The outcome of the walk of `handleRemoveField` over all path segments but
the last: a raised TypeError (reading a property of a null base), an early
return (a step that is missing or falsy), or the resolved parent container. -/
inductive WalkResult
  | thrown
  | missing
  | parent (par : Json)

/-- The walk of `handleRemoveField` over all path segments but the last:
stepping from a null base throws a TypeError, a missing or falsy step returns
early, and otherwise the walk descends into the property value. -/
def resolveParent (j : Json) : List String → WalkResult
  | [] => .parent j
  | seg :: rest =>
    if j.isNull then .thrown
    else
      match jsProp j seg with
      | none => .missing
      | some v => if jsTruthy v then resolveParent v rest else .missing

/-- The final removal step of `handleRemoveField` on the resolved parent:
splice an array at the parsed bracket-stripped index (no-op when `parseInt`
yields `NaN`), delete the key of an object, leave a boolean or number
unchanged; `none` is a raised TypeError — `delete` on a null parent, or a
strict-mode `delete` of a non-configurable own property (an in-range index
or `length`) of a string parent. -/
def applyRemoval (par : Json) (finalKey : String) : Option Json :=
  match par with
  | .null => none
  | .arr xs =>
    some (match jsParseInt10 (stripBrackets finalKey) with
      | some idx => .arr (jsSplice1 xs idx)
      | none => .arr xs)
  | .obj fs => some (.obj (eraseKey fs finalKey))
  | .str s => if strOwnIndexOrLength s finalKey then none else some (.str s)
  | other => some other

/-- Functional update of the container at a path: replace the value reached
by the walk with `v`, copying the spine. -/
def jsSetPath (j : Json) (segs : List String) (v : Json) : Json :=
  match segs with
  | [] => v
  | seg :: rest =>
    match jsProp j seg with
    | none => j
    | some c => jsSetProp j seg (jsSetPath c rest v)

theorem setKey_self : ∀ (fs : List (String × Json)) (k : String) (v : Json),
    fs.lookup k = some v → setKey fs k v = fs := by
  intro fs
  induction fs with
  | nil => intro k v h; simp [List.lookup] at h
  | cons hd rest ih =>
    intro k v h
    obtain ⟨k1, v1⟩ := hd
    rw [List.lookup_cons] at h
    simp only [setKey]
    by_cases hk : k1 = k
    · subst hk
      simp at h
      subst h
      simp
    · have hbk : (k == k1) = false := by simpa using (fun he => hk he.symm)
      simp only [hbk] at h
      simp [hk, ih k v h]

theorem set_self : ∀ (xs : List Json) (i : Nat) (v : Json),
    xs.get? i = some v → xs.set i v = xs := by
  intro xs
  induction xs with
  | nil => intro i v h; simp at h
  | cons x xs ih =>
    intro i v h
    cases i with
    | zero =>
      simp at h
      subst h
      simp
    | succ i =>
      simp only [List.get?_cons_succ] at h
      simp [List.set, ih i v h]

theorem jsSetProp_self {j : Json} {k : String} {v : Json} (h : jsProp j k = some v) :
    jsSetProp j k v = j := by
  cases j with
  | obj fs =>
    simp only [jsProp] at h
    simp [jsSetProp, setKey_self fs k v h]
  | arr xs =>
    simp only [jsProp] at h
    by_cases hk : k = "length"
    · subst hk
      simp [jsSetProp, show canonIndex "length" = none from rfl]
    · rw [if_neg hk] at h
      rcases hc : canonIndex k with _ | i
      · rw [hc] at h; cases h
      · rw [hc] at h
        simp [jsSetProp, hc, set_self xs i v h]
  | null => simp [jsProp] at h
  | bool b => simp [jsProp] at h
  | num n => simp [jsProp] at h
  | str s => rfl

theorem splitDotAux_ne_nil : ∀ (cs acc : List Char), splitDotAux acc cs ≠ [] := by
  intro cs
  induction cs with
  | nil => intro acc; simp [splitDotAux]
  | cons c cs ih =>
    intro acc
    simp only [splitDotAux]
    by_cases hc : c = '.'
    · simp [hc]
    · rw [if_neg hc]
      exact ih _

theorem jsSplitDot_ne_nil (s : String) : jsSplitDot s ≠ [] :=
  splitDotAux_ne_nil s.toList []

/-- The `handleRemoveField` body, characterized: resolve the parent of the
path; a throwing walk throws, an early return leaves the document unchanged,
and a resolved parent is replaced (along a copied spine) by the result of the
final removal step, whose own TypeError likewise propagates. -/
theorem removeAt_spec :
    ∀ (segs : List String) (j : Json), segs ≠ [] →
      removeAt j segs
        = match resolveParent j segs.dropLast with
          | .thrown => none
          | .missing => some j
          | .parent par =>
            (applyRemoval par (segs.getLastD "")).map (jsSetPath j segs.dropLast) := by
  intro segs
  induction segs with
  | nil => intro j h; exact absurd rfl h
  | cons seg rest ih =>
    intro j _
    cases rest with
    | nil =>
      show removeAt j [seg] = (applyRemoval j seg).map (jsSetPath j [])
      have hra : removeAt j [seg] = applyRemoval j seg := by
        cases j <;> rfl
      rw [hra]
      rcases applyRemoval j seg with _ | r <;> rfl
    | cons k2 rest2 =>
      have hdl : (seg :: k2 :: rest2).dropLast = seg :: (k2 :: rest2).dropLast := rfl
      rw [hdl]
      rw [show (seg :: k2 :: rest2).getLastD "" = (k2 :: rest2).getLastD "" from rfl]
      simp only [removeAt, resolveParent]
      by_cases hn : j.isNull = true
      · simp [hn]
      · rw [if_neg hn, if_neg hn]
        rcases hp : jsProp j seg with _ | v
        · rfl
        · by_cases htr : jsTruthy v = true
          · simp only [htr, if_true]
            rw [ih v (by simp)]
            rcases hr : resolveParent v (k2 :: rest2).dropLast with _ | _ | par
            · rfl
            · exact congrArg some (jsSetProp_self hp)
            · show (Option.map (jsSetPath v ((k2 :: rest2).dropLast))
                      (applyRemoval par ((k2 :: rest2).getLastD ""))).map (jsSetProp j seg)
                  = (applyRemoval par ((k2 :: rest2).getLastD "")).map
                      (jsSetPath j (seg :: (k2 :: rest2).dropLast))
              rcases ha : applyRemoval par ((k2 :: rest2).getLastD "") with _ | r
              · rfl
              · show some (jsSetProp j seg (jsSetPath v ((k2 :: rest2).dropLast) r))
                  = some (jsSetPath j (seg :: (k2 :: rest2).dropLast) r)
                simp only [jsSetPath, hp]
          · simp only [htr]
            simp

theorem childPath_empty (k : String) : childPath "" k = k := by
  simp [childPath]

theorem ite_beqJsonOpt_some {X : Type} (a b : Json) (x y : X) :
    (if beqJsonOpt (some a) (some b) = true then x else y) = (if a = b then x else y) := by
  by_cases h : a = b
  · subst h
    simp [beqJsonOpt, beqJson_refl]
  · have hb : beqJson a b = false := by
      rcases hb : beqJson a b
      · rfl
      · exact absurd (beqJson_eq_true_iff.mp hb) h
    simp [beqJsonOpt, hb, h]

/-- C7: generating from an identical original/enriched pair with the empty
validation store round-trips: the output is deep-equal to the input document.
-/
theorem C7_round_trip (d : Json) :
    generateFinalJson d d (compareJsonObjects d d "") (fun _ => none) = d := by
  have hau := compare_self_allUnchanged_aux (sizeOf d) d le_rfl ""
  exact processObject_allUnchanged_aux (sizeOf (compareJsonObjects d d "")) _ le_rfl hau d d _ []

/-- C8: a store with an explicit PENDING entry at a path `p` behaves exactly
like the same store with no entry at `p`, for both the pending-field
collection and the merge output. -/
theorem C8_pending_default (d : DiffResult) (vs : FieldValidation) (p : String)
    (o e : Json) (pre : List String) :
    (getAllPendingFields d (fun q => if q = p then some ValidationState.PENDING else vs q) pre
      = getAllPendingFields d (fun q => if q = p then none else vs q) pre) ∧
    (generateFinalJson o e d (fun q => if q = p then some ValidationState.PENDING else vs q)
      = generateFinalJson o e d (fun q => if q = p then none else vs q)) := by
  have hvs : ∀ q, lookupState (fun q => if q = p then some ValidationState.PENDING else vs q) q
      = lookupState (fun q => if q = p then none else vs q) q := by
    intro q
    by_cases hq : q = p <;> simp [lookupState, hq]
  exact ⟨getAllPendingFields_congr_aux _ _ hvs (sizeOf d) d le_rfl pre,
    processObject_congr_aux _ _ hvs (sizeOf d) d le_rfl o e []⟩

/-- C9 counterexample: on a null document the source does not complete as a
silent no-op — it throws a TypeError (reading a property of the null root
during the walk of the two-segment path, and at `delete null[finalKey]` for
the one-segment path), modelled as `none` rather than the unchanged document.
-/
theorem C9_counterexample :
    handleRemoveField Json.null "a.b" = none
    ∧ handleRemoveField Json.null "a" = none
    ∧ (none : Option Json) ≠ some Json.null := by
  refine ⟨rfl, rfl, ?_⟩
  intro h
  cases h

/-- C9 (amended): `handleRemoveField` resolves the parent of the split path
by walking truthy property steps; stepping from a null base raises a
TypeError (modelled `none`), a missing or falsy step silently leaves the
document unchanged, and a resolved parent is replaced (along a copied spine)
by the final removal step — which splices an array parent at the parsed
bracket-stripped index (no-op when the index does not parse), deletes the key
of an object parent, leaves a boolean or number parent unchanged, and raises
a TypeError on a null parent or on a string parent's own in-range index or
`length` (the functional update `jsSetPath` models the source's
deep-clone-then-mutate, which never mutates the pre-existing document). -/
theorem C9_remove_field (doc : Json) (fieldPath : String) :
    handleRemoveField doc fieldPath
      = match resolveParent doc (jsSplitDot fieldPath).dropLast with
        | .thrown => none
        | .missing => some doc
        | .parent par =>
          (applyRemoval par ((jsSplitDot fieldPath).getLastD "")).map
            (jsSetPath doc (jsSplitDot fieldPath).dropLast) :=
  removeAt_spec (jsSplitDot fieldPath) doc (jsSplitDot_ne_nil fieldPath)

/-- C3 counterexample: with a boolean pre-edit value and input text that is
neither "true" nor "false", the committed value is the boolean `false`, not
the raw input string as the claim requires. -/
theorem C3_counterexample :
    handleSave (fun _ => none) (Json.bool true) "banana" = Json.bool false
    ∧ handleSave (fun _ => none) (Json.bool true) "banana" ≠ Json.str "banana" := by
  constructor
  · rfl
  · intro h
    rw [show handleSave (fun _ => none) (Json.bool true) "banana" = Json.bool false from rfl] at h
    cases h

/-- C3 (amended): the committed value is derived from the pre-edit value's
type — numeric: parse the input (falling back to the raw string), boolean:
store `input.toLowerCase() === "true"`, i.e. `true` exactly for the text
"true" (case-insensitively) and `false` for every other input text, null:
the text "null" (case-insensitively) yields null, and all remaining cases
store the raw string. -/
theorem C3_amended_coercion (jsNumber : String → Option Int) (value : Json)
    (editValue : String) :
    ((∃ n, value = Json.num n) →
      handleSave jsNumber value editValue
        = (match jsNumber editValue with
           | some m => Json.num m
           | none => Json.str editValue)) ∧
    ((∃ b, value = Json.bool b) →
      handleSave jsNumber value editValue = Json.bool (jsToLower editValue == "true")) ∧
    (value = Json.null →
      handleSave jsNumber value editValue
        = (if jsToLower editValue = "null" then Json.null else Json.str editValue)) ∧
    ((∀ n, value ≠ Json.num n) → (∀ b, value ≠ Json.bool b) → value ≠ Json.null →
      handleSave jsNumber value editValue = Json.str editValue) := by
  refine ⟨?_, ?_, ?_, ?_⟩
  · rintro ⟨n, rfl⟩
    simp [handleSave, jsIsNum]
  · rintro ⟨b, rfl⟩
    simp [handleSave, jsIsNum, jsIsBool]
  · rintro rfl
    by_cases hn : jsToLower editValue = "null" <;>
      simp [handleSave, jsIsNum, jsIsBool, hn]
  · intro hn hb hnull
    cases value with
    | num n => exact absurd rfl (hn n)
    | bool b => exact absurd rfl (hb b)
    | null => exact absurd rfl hnull
    | str s => simp [handleSave, jsIsNum, jsIsBool]
    | arr xs => simp [handleSave, jsIsNum, jsIsBool]
    | obj fs => simp [handleSave, jsIsNum, jsIsBool]

theorem C3_witness :
    handleSave (fun _ => none) (Json.bool true) "x" = Json.bool (jsToLower "x" == "true") :=
  (C3_amended_coercion (fun _ => none) (Json.bool true) "x").2.1 ⟨true, rfl⟩

/-- C1 counterexample: for `original = {}`, `enriched = {"a": {"b": 1}}` the
diff stores at "a" a leaf NEW node (no nested tree) whose value is an object;
its stored state is PENDING (no entry), yet `getAllPendingFields` returns the
empty list — "a" does not contribute, contradicting the claim that every
NEW/MODIFIED PENDING leaf contributes, object-valued leaves included. -/
theorem C1_counterexample :
    (compareJsonObjects (Json.obj []) (Json.obj [("a", Json.obj [("b", Json.num 1)])]) "").lookup
        "a"
      = some (DiffNode.mk DiffType.NEW (some (Json.obj [("b", Json.num 1)])) none none)
    ∧ ((fun _ => none : FieldValidation) "a") = none
    ∧ getAllPendingFields
        (compareJsonObjects (Json.obj []) (Json.obj [("a", Json.obj [("b", Json.num 1)])]) "")
        (fun _ => none) [] = [] := by
  have hd : compareJsonObjects (Json.obj []) (Json.obj [("a", Json.obj [("b", Json.num 1)])]) ""
      = [("a", DiffNode.mk DiffType.NEW (some (Json.obj [("b", Json.num 1)])) none none)] := by
    rw [compareJsonObjects.eq_def]
    simp [dedupKeys, jsObjKeys, nullToEmpty, jsGet, List.lookup]
  refine ⟨by rw [hd]; rfl, rfl, ?_⟩
  rw [hd, getAllPendingFields.eq_def]
  simp [jsIsPrimitiveOpt, getAllPendingFields]

/-- C1 (amended): a leaf NEW/MODIFIED node with effective state PENDING
contributes its dot-joined path to `getAllPendingFields` provided its value
is primitive (null, boolean, number or string) and no segment of its path is
the excluded key `"@type"`; leaves whose value is an object or an array are
never collected. -/
theorem C1_amended_pending_collection (o e : Json) (vs : FieldValidation)
    (p : List String) (node : DiffNode)
    (h : diffAt (compareJsonObjects o e "") p = some node)
    (hleaf : node.nested = none)
    (hprim : jsIsPrimitiveOpt node.value = true)
    (hty : node.type = DiffType.NEW ∨ node.type = DiffType.MODIFIED)
    (hst : lookupState vs (joinPath p) = ValidationState.PENDING)
    (hns : ∀ k ∈ p, k ≠ "@type") :
    joinPath p ∈ getAllPendingFields (compareJsonObjects o e "") vs [] := by
  have := collect_pending_deep p o e "" vs [] node h hleaf hprim hty (by simpa using hst) hns
  simpa using this

theorem C1_witness :
    ("a" : String) ∈ getAllPendingFields
      (compareJsonObjects (Json.obj []) (Json.obj [("a", Json.num 1)]) "")
      (fun _ => none) [] := by
  have hd : compareJsonObjects (Json.obj []) (Json.obj [("a", Json.num 1)]) ""
      = [("a", DiffNode.mk DiffType.NEW (some (Json.num 1)) none none)] := by
    rw [compareJsonObjects.eq_def]
    simp [dedupKeys, jsObjKeys, nullToEmpty, jsGet, List.lookup]
  have h := C1_amended_pending_collection (Json.obj []) (Json.obj [("a", Json.num 1)])
    (fun _ => none) ["a"] (DiffNode.mk DiffType.NEW (some (Json.num 1)) none none)
    (by rw [show diffAt (compareJsonObjects (Json.obj []) (Json.obj [("a", Json.num 1)]) "")
          ["a"] = (compareJsonObjects (Json.obj []) (Json.obj [("a", Json.num 1)]) "").lookup "a"
          from rfl, hd]
        rfl)
    rfl rfl (Or.inl rfl) rfl
    (by decide)
  simpa using h

/-- C2 counterexample: for `original = {"a": {"b": 1}}`,
`enriched = {"a": {"b": 2}}`, the path "a" addresses a composite (MODIFIED,
object-valued, child-bearing) node.  A store with DECLINED at "a" yields
`{"a": {"b": 1}}` while the store without that entry yields `{"a": {"b": 2}}`
— the DECLINED entry at the composite path does change the merge result. -/
theorem C2_counterexample :
    (compareJsonObjects (Json.obj [("a", Json.obj [("b", Json.num 1)])])
        (Json.obj [("a", Json.obj [("b", Json.num 2)])]) "").lookup "a"
      = some (DiffNode.mk DiffType.MODIFIED (some (Json.obj [("b", Json.num 2)]))
          (some (Json.obj [("b", Json.num 1)]))
          (some [("b", DiffNode.mk DiffType.MODIFIED (some (Json.num 2)) (some (Json.num 1))
            none)]))
    ∧ generateFinalJson (Json.obj [("a", Json.obj [("b", Json.num 1)])])
        (Json.obj [("a", Json.obj [("b", Json.num 2)])])
        (compareJsonObjects (Json.obj [("a", Json.obj [("b", Json.num 1)])])
          (Json.obj [("a", Json.obj [("b", Json.num 2)])]) "")
        (fun p => if p = "a" then some ValidationState.DECLINED else none)
      = Json.obj [("a", Json.obj [("b", Json.num 1)])]
    ∧ generateFinalJson (Json.obj [("a", Json.obj [("b", Json.num 1)])])
        (Json.obj [("a", Json.obj [("b", Json.num 2)])])
        (compareJsonObjects (Json.obj [("a", Json.obj [("b", Json.num 1)])])
          (Json.obj [("a", Json.obj [("b", Json.num 2)])]) "")
        (fun _ => none)
      = Json.obj [("a", Json.obj [("b", Json.num 2)])]
    ∧ Json.obj [("a", Json.obj [("b", Json.num 1)])]
      ≠ Json.obj [("a", Json.obj [("b", Json.num 2)])] := by
  have hb12 : beqJsonOpt (some (Json.num 1)) (some (Json.num 2)) = false := by
    simp [beqJsonOpt, beqJson]
  have hinner : compareJsonObjects (Json.obj [("b", Json.num 1)]) (Json.obj [("b", Json.num 2)])
      "a" = [("b", DiffNode.mk DiffType.MODIFIED (some (Json.num 2)) (some (Json.num 1)) none)]
      := by
    rw [compareJsonObjects.eq_def]
    simp [dedupKeys, jsObjKeys, nullToEmpty, jsGet, List.lookup, hb12]
  have houter : compareJsonObjects (Json.obj [("a", Json.obj [("b", Json.num 1)])])
      (Json.obj [("a", Json.obj [("b", Json.num 2)])]) ""
      = [("a", DiffNode.mk DiffType.MODIFIED (some (Json.obj [("b", Json.num 2)]))
          (some (Json.obj [("b", Json.num 1)]))
          (some [("b", DiffNode.mk DiffType.MODIFIED (some (Json.num 2)) (some (Json.num 1))
            none)]))] := by
    rw [compareJsonObjects.eq_def]
    simp [dedupKeys, jsObjKeys, nullToEmpty, jsGet, List.lookup, hinner, diffAnyChanged,
      DiffNode.type]
  have hjpa : joinPath ["a"] = "a" := rfl
  have hjpab : joinPath (["a"] ++ ["b"]) = "a.b" := rfl
  refine ⟨by rw [houter]; rfl, ?_, ?_, by simp⟩
  · simp only [generateFinalJson]
    rw [houter, processObject_obj]
    simp [processBody, List.lookup, lookupState, hjpa, List.filterMap_cons]
  · simp only [generateFinalJson]
    rw [houter, processObject_obj]
    have hinnerGen : processObject (jsOrElseEmptyObj (some (Json.obj [("b", Json.num 1)])))
        (Json.obj [("b", Json.num 2)])
        [("b", DiffNode.mk DiffType.MODIFIED (some (Json.num 2)) (some (Json.num 1)) none)]
        (fun _ => none) ["a"]
        = Json.obj [("b", Json.num 2)] := by
      rw [jsOrElseEmptyObj_obj, processObject_obj]
      simp [processBody, List.lookup, lookupState, hjpab, List.filterMap_cons]
    simp [processBody, List.lookup, lookupState, hjpa, jsIsObjLike, hinnerGen,
      List.filterMap_cons]

/-- C2 (amended): a DECLINED decision stored at a composite path is not
merge-inert: at a MODIFIED node (composite just as leaf) it reverts the whole
subtree, storing the node's `originalValue` — the original document's value
at that path — at that key of the merge result. -/
theorem C2_amended_composite_decline (o e : Json) (vs : FieldValidation) (p : List String)
    (node : DiffNode) (n : DiffResult)
    (h : diffAt (compareJsonObjects o e "") p = some node)
    (ht : node.type = DiffType.MODIFIED)
    (hn : node.nested = some n)
    (hs : vs (joinPath p) = some ValidationState.DECLINED) :
    getPath (generateFinalJson o e (compareJsonObjects o e "") vs) p = node.originalValue
    ∧ node.originalValue = getPath o p := by
  have hls : lookupState vs (joinPath ([] ++ p)) = ValidationState.DECLINED := by
    simp [lookupState, hs]
  exact ⟨merge_modified_declined p o e "" vs [] node h ht hls,
    (diffAt_values p o e "" node h).1.symm⟩

theorem C2_witness :
    getPath (generateFinalJson (Json.obj [("a", Json.obj [("b", Json.num 1)])])
        (Json.obj [("a", Json.obj [("b", Json.num 2)])])
        (compareJsonObjects (Json.obj [("a", Json.obj [("b", Json.num 1)])])
          (Json.obj [("a", Json.obj [("b", Json.num 2)])]) "")
        (fun q => if q = "a" then some ValidationState.DECLINED else none)) ["a"]
      = some (Json.obj [("b", Json.num 1)])
    ∧ (some (Json.obj [("b", Json.num 1)]) : Option Json)
      = getPath (Json.obj [("a", Json.obj [("b", Json.num 1)])]) ["a"] := by
  have hb12 : beqJsonOpt (some (Json.num 1)) (some (Json.num 2)) = false := by
    simp [beqJsonOpt, beqJson]
  have hinner : compareJsonObjects (Json.obj [("b", Json.num 1)]) (Json.obj [("b", Json.num 2)])
      "a" = [("b", DiffNode.mk DiffType.MODIFIED (some (Json.num 2)) (some (Json.num 1)) none)]
      := by
    rw [compareJsonObjects.eq_def]
    simp [dedupKeys, jsObjKeys, nullToEmpty, jsGet, List.lookup, hb12]
  have houter : compareJsonObjects (Json.obj [("a", Json.obj [("b", Json.num 1)])])
      (Json.obj [("a", Json.obj [("b", Json.num 2)])]) ""
      = [("a", DiffNode.mk DiffType.MODIFIED (some (Json.obj [("b", Json.num 2)]))
          (some (Json.obj [("b", Json.num 1)]))
          (some [("b", DiffNode.mk DiffType.MODIFIED (some (Json.num 2)) (some (Json.num 1))
            none)]))] := by
    rw [compareJsonObjects.eq_def]
    simp [dedupKeys, jsObjKeys, nullToEmpty, jsGet, List.lookup, hinner, diffAnyChanged,
      DiffNode.type]
  exact C2_amended_composite_decline (Json.obj [("a", Json.obj [("b", Json.num 1)])])
    (Json.obj [("a", Json.obj [("b", Json.num 2)])])
    (fun q => if q = "a" then some ValidationState.DECLINED else none) ["a"]
    (DiffNode.mk DiffType.MODIFIED (some (Json.obj [("b", Json.num 2)]))
      (some (Json.obj [("b", Json.num 1)]))
      (some [("b", DiffNode.mk DiffType.MODIFIED (some (Json.num 2)) (some (Json.num 1)) none)]))
    [("b", DiffNode.mk DiffType.MODIFIED (some (Json.num 2)) (some (Json.num 1)) none)]
    (by rw [show diffAt (compareJsonObjects (Json.obj [("a", Json.obj [("b", Json.num 1)])])
          (Json.obj [("a", Json.obj [("b", Json.num 2)])]) "") ["a"]
          = (compareJsonObjects (Json.obj [("a", Json.obj [("b", Json.num 1)])])
              (Json.obj [("a", Json.obj [("b", Json.num 2)])]) "").lookup "a" from rfl, houter]
        rfl)
    rfl rfl rfl

/-- C5: declining a MODIFIED leaf reverts it — the merge output at that leaf
path is the node's stored `originalValue`, which is exactly the original
document's value at that path; no recursion into the subtree takes place
(the stored value is used verbatim). -/
theorem C5_decline_reverts (o e : Json) (vs : FieldValidation) (p : List String)
    (node : DiffNode)
    (h : diffAt (compareJsonObjects o e "") p = some node)
    (ht : node.type = DiffType.MODIFIED)
    (hleaf : node.nested = none)
    (hs : vs (joinPath p) = some ValidationState.DECLINED) :
    getPath (generateFinalJson o e (compareJsonObjects o e "") vs) p = node.originalValue
    ∧ node.originalValue = getPath o p := by
  have hls : lookupState vs (joinPath ([] ++ p)) = ValidationState.DECLINED := by
    simp [lookupState, hs]
  exact ⟨merge_modified_declined p o e "" vs [] node h ht hls,
    (diffAt_values p o e "" node h).1.symm⟩

theorem C5_witness :
    getPath (generateFinalJson (Json.obj [("x", Json.num 1)]) (Json.obj [("x", Json.num 2)])
        (compareJsonObjects (Json.obj [("x", Json.num 1)]) (Json.obj [("x", Json.num 2)]) "")
        (fun q => if q = "x" then some ValidationState.DECLINED else none)) ["x"]
      = some (Json.num 1)
    ∧ (some (Json.num 1) : Option Json) = getPath (Json.obj [("x", Json.num 1)]) ["x"] := by
  have hb12 : beqJsonOpt (some (Json.num 1)) (some (Json.num 2)) = false := by
    simp [beqJsonOpt, beqJson]
  have hd : compareJsonObjects (Json.obj [("x", Json.num 1)]) (Json.obj [("x", Json.num 2)]) ""
      = [("x", DiffNode.mk DiffType.MODIFIED (some (Json.num 2)) (some (Json.num 1)) none)]
      := by
    rw [compareJsonObjects.eq_def]
    simp [dedupKeys, jsObjKeys, nullToEmpty, jsGet, List.lookup, hb12]
  exact C5_decline_reverts (Json.obj [("x", Json.num 1)]) (Json.obj [("x", Json.num 2)])
    (fun q => if q = "x" then some ValidationState.DECLINED else none) ["x"]
    (DiffNode.mk DiffType.MODIFIED (some (Json.num 2)) (some (Json.num 1)) none)
    (by rw [show diffAt (compareJsonObjects (Json.obj [("x", Json.num 1)])
          (Json.obj [("x", Json.num 2)]) "") ["x"]
          = (compareJsonObjects (Json.obj [("x", Json.num 1)])
              (Json.obj [("x", Json.num 2)]) "").lookup "x" from rfl, hd]
        rfl)
    rfl rfl rfl

/-- C6 counterexample: for `original = {"a": {"x": 1}}`,
`enriched = {"a": {"x": 1, "b": 9}}` with the store
`{"a": DECLINED, "a.b": APPROVED}`, the NEW leaf "a.b" has state APPROVED yet
its enriched value 9 is NOT included in the generated document — the
DECLINED MODIFIED ancestor "a" reverts the whole subtree — contradicting the
claim's unconditional inclusion clause. -/
theorem C6_counterexample :
    diffAt (compareJsonObjects (Json.obj [("a", Json.obj [("x", Json.num 1)])])
        (Json.obj [("a", Json.obj [("x", Json.num 1), ("b", Json.num 9)])]) "") ["a", "b"]
      = some (DiffNode.mk DiffType.NEW (some (Json.num 9)) none none)
    ∧ ((fun q => if q = "a" then some ValidationState.DECLINED
        else if q = "a.b" then some ValidationState.APPROVED else none) : FieldValidation) "a.b"
      = some ValidationState.APPROVED
    ∧ getPath (generateFinalJson (Json.obj [("a", Json.obj [("x", Json.num 1)])])
        (Json.obj [("a", Json.obj [("x", Json.num 1), ("b", Json.num 9)])])
        (compareJsonObjects (Json.obj [("a", Json.obj [("x", Json.num 1)])])
          (Json.obj [("a", Json.obj [("x", Json.num 1), ("b", Json.num 9)])]) "")
        (fun q => if q = "a" then some ValidationState.DECLINED
          else if q = "a.b" then some ValidationState.APPROVED else none)) ["a", "b"]
      = none
    ∧ getPath (Json.obj [("a", Json.obj [("x", Json.num 1), ("b", Json.num 9)])]) ["a", "b"]
      = some (Json.num 9) := by
  have hb11 : beqJsonOpt (some (Json.num 1)) (some (Json.num 1)) = true := by
    simp [beqJsonOpt, beqJson]
  have hinner : compareJsonObjects (Json.obj [("x", Json.num 1)])
      (Json.obj [("x", Json.num 1), ("b", Json.num 9)]) "a"
      = [("x", DiffNode.mk DiffType.UNCHANGED (some (Json.num 1)) (some (Json.num 1)) none),
         ("b", DiffNode.mk DiffType.NEW (some (Json.num 9)) none none)] := by
    rw [compareJsonObjects.eq_def]
    simp [dedupKeys, jsObjKeys, nullToEmpty, jsGet, List.lookup, hb11]
  have houter : compareJsonObjects (Json.obj [("a", Json.obj [("x", Json.num 1)])])
      (Json.obj [("a", Json.obj [("x", Json.num 1), ("b", Json.num 9)])]) ""
      = [("a", DiffNode.mk DiffType.MODIFIED
          (some (Json.obj [("x", Json.num 1), ("b", Json.num 9)]))
          (some (Json.obj [("x", Json.num 1)]))
          (some [("x", DiffNode.mk DiffType.UNCHANGED (some (Json.num 1)) (some (Json.num 1))
              none),
            ("b", DiffNode.mk DiffType.NEW (some (Json.num 9)) none none)]))] := by
    rw [compareJsonObjects.eq_def]
    simp [dedupKeys, jsObjKeys, nullToEmpty, jsGet, List.lookup, hinner, diffAnyChanged,
      DiffNode.type]
  have hjpa : joinPath ["a"] = "a" := rfl
  have hgen : generateFinalJson (Json.obj [("a", Json.obj [("x", Json.num 1)])])
      (Json.obj [("a", Json.obj [("x", Json.num 1), ("b", Json.num 9)])])
      (compareJsonObjects (Json.obj [("a", Json.obj [("x", Json.num 1)])])
        (Json.obj [("a", Json.obj [("x", Json.num 1), ("b", Json.num 9)])]) "")
      (fun q => if q = "a" then some ValidationState.DECLINED
        else if q = "a.b" then some ValidationState.APPROVED else none)
      = Json.obj [("a", Json.obj [("x", Json.num 1)])] := by
    simp only [generateFinalJson]
    rw [houter, processObject_obj]
    simp [processBody, List.lookup, lookupState, hjpa, List.filterMap_cons]
  refine ⟨?_, rfl, ?_, ?_⟩
  · rw [diffAt_cons_of_ne_nil (by simp)
      (by rw [houter]; rfl : (compareJsonObjects (Json.obj [("a", Json.obj [("x", Json.num 1)])])
        (Json.obj [("a", Json.obj [("x", Json.num 1), ("b", Json.num 9)])]) "").lookup "a"
        = some (DiffNode.mk DiffType.MODIFIED
            (some (Json.obj [("x", Json.num 1), ("b", Json.num 9)]))
            (some (Json.obj [("x", Json.num 1)]))
            (some [("x", DiffNode.mk DiffType.UNCHANGED (some (Json.num 1)) (some (Json.num 1))
                none),
              ("b", DiffNode.mk DiffType.NEW (some (Json.num 9)) none none)]))) rfl]
    simp [diffAt, List.lookup]
  · rw [hgen]
    simp [getPath, jsGet, List.lookup]
  · simp [getPath, jsGet, List.lookup]

/-- C6 (amended): for a NEW leaf path, DECLINED omits the key entirely from
the generated document (unconditionally); APPROVED or PENDING includes the
enriched value at that path, provided no strict ancestor of the path is a
MODIFIED node with a stored DECLINED decision (such an ancestor reverts its
whole subtree to the original and thereby drops the NEW key). -/
theorem C6_new_leaf_merge (o e : Json) (vs : FieldValidation) (p : List String)
    (node : DiffNode)
    (h : diffAt (compareJsonObjects o e "") p = some node)
    (ht : node.type = DiffType.NEW) :
    (vs (joinPath p) = some ValidationState.DECLINED →
      getPath (generateFinalJson o e (compareJsonObjects o e "") vs) p = none)
    ∧ ((lookupState vs (joinPath p) = ValidationState.APPROVED ∨
        lookupState vs (joinPath p) = ValidationState.PENDING) →
      (∀ (q r : List String) (anc : DiffNode), p = q ++ r → q ≠ [] → r ≠ [] →
        diffAt (compareJsonObjects o e "") q = some anc →
        anc.type = DiffType.MODIFIED →
        lookupState vs (joinPath q) ≠ ValidationState.DECLINED) →
      getPath (generateFinalJson o e (compareJsonObjects o e "") vs) p = getPath e p) := by
  constructor
  · intro hs
    have hls : lookupState vs (joinPath ([] ++ p)) = ValidationState.DECLINED := by
      simp [lookupState, hs]
    exact merge_new_declined p o e "" vs [] node h ht hls
  · intro hs hanc
    have hls : lookupState vs (joinPath ([] ++ p)) ≠ ValidationState.DECLINED := by
      simp only [List.nil_append]
      rcases hs with hs | hs <;> rw [hs] <;> intro hcontra <;> cases hcontra
    have hanc2 : ∀ (q r : List String) (anc : DiffNode), p = q ++ r → q ≠ [] → r ≠ [] →
        diffAt (compareJsonObjects o e "") q = some anc →
        anc.type = DiffType.MODIFIED →
        lookupState vs (joinPath ([] ++ q)) ≠ ValidationState.DECLINED := by
      intro q r anc h1 h2 h3 h4 h5
      simpa using hanc q r anc h1 h2 h3 h4 h5
    exact merge_new_included p o e "" vs [] node h ht hls hanc2

theorem C6_witness :
    getPath (generateFinalJson (Json.obj []) (Json.obj [("b", Json.num 9)])
        (compareJsonObjects (Json.obj []) (Json.obj [("b", Json.num 9)]) "")
        (fun q => if q = "b" then some ValidationState.DECLINED else none)) ["b"]
      = none := by
  have hd : compareJsonObjects (Json.obj []) (Json.obj [("b", Json.num 9)]) ""
      = [("b", DiffNode.mk DiffType.NEW (some (Json.num 9)) none none)] := by
    rw [compareJsonObjects.eq_def]
    simp [dedupKeys, jsObjKeys, nullToEmpty, jsGet, List.lookup]
  exact (C6_new_leaf_merge (Json.obj []) (Json.obj [("b", Json.num 9)])
    (fun q => if q = "b" then some ValidationState.DECLINED else none) ["b"]
    (DiffNode.mk DiffType.NEW (some (Json.num 9)) none none)
    (by rw [show diffAt (compareJsonObjects (Json.obj []) (Json.obj [("b", Json.num 9)]) "")
          ["b"] = (compareJsonObjects (Json.obj []) (Json.obj [("b", Json.num 9)]) "").lookup "b"
          from rfl, hd]
        rfl)
    rfl).1 rfl

/-- C4: classification of a key present on both sides.  If both values are
(non-null, non-array) objects the node recurses: it keeps both full values
and the child tree, and is MODIFIED exactly when some descendant of the child
tree has a kind other than UNCHANGED (else UNCHANGED).  Otherwise the two
values are deep-compared: UNCHANGED exactly when they are deep-equal as JSON
values, MODIFIED when not. -/
theorem C4_both_sides_classification (o e : Json) (k : String) (ov ev : Json)
    (ho : jsGet o k = some ov) (he : jsGet e k = some ev) :
    ((∃ ofs efs, ov = Json.obj ofs ∧ ev = Json.obj efs) →
      (compareJsonObjects o e "").lookup k
        = some (DiffNode.mk
            (if diffAnyChangedDeep (compareJsonObjects ov ev k) = true
             then DiffType.MODIFIED else DiffType.UNCHANGED)
            (some ev) (some ov) (some (compareJsonObjects ov ev k)))) ∧
    ((∀ ofs efs, ¬ (ov = Json.obj ofs ∧ ev = Json.obj efs)) →
      (compareJsonObjects o e "").lookup k
        = some (DiffNode.mk (if ov = ev then DiffType.UNCHANGED else DiffType.MODIFIED)
            (some ev) (some ov) none)) := by
  have hco := contains_of_jsGet_some ho
  have hce := contains_of_jsGet_some he
  have hmo := contains_iff_mem.mp hco
  have hme := contains_iff_mem.mp hce
  constructor
  · rintro ⟨ofs, efs, rfl, rfl⟩
    rw [compare_lookup]
    have hdeep := compare_deep_eq_flat_aux (sizeOf (Json.obj ofs) + sizeOf (Json.obj efs))
      (Json.obj ofs) (Json.obj efs) le_rfl k
    simp [compareBody, jsObjKeys_nullToEmpty, jsGet_nullToEmpty, hco, hce, hmo, hme, ho, he,
      childPath_empty, hdeep]
  · intro hnb
    rw [compare_lookup]
    cases ov <;> cases ev <;>
      first
      | exact absurd ⟨rfl, rfl⟩ (hnb _ _)
      | (simp [compareBody, jsObjKeys_nullToEmpty, jsGet_nullToEmpty, hco, hce, hmo, hme,
          ho, he, childPath_empty, ite_beqJsonOpt_some])

theorem C4_witness :
    (compareJsonObjects (Json.obj [("k", Json.obj [("x", Json.num 1)])])
        (Json.obj [("k", Json.obj [("x", Json.num 2)])]) "").lookup "k"
      = some (DiffNode.mk
          (if diffAnyChangedDeep (compareJsonObjects (Json.obj [("x", Json.num 1)])
              (Json.obj [("x", Json.num 2)]) "k") = true
           then DiffType.MODIFIED else DiffType.UNCHANGED)
          (some (Json.obj [("x", Json.num 2)])) (some (Json.obj [("x", Json.num 1)]))
          (some (compareJsonObjects (Json.obj [("x", Json.num 1)])
              (Json.obj [("x", Json.num 2)]) "k"))) :=
  (C4_both_sides_classification (Json.obj [("k", Json.obj [("x", Json.num 1)])])
    (Json.obj [("k", Json.obj [("x", Json.num 2)])]) "k" (Json.obj [("x", Json.num 1)])
    (Json.obj [("x", Json.num 2)])
    (by simp [jsGet, List.lookup]) (by simp [jsGet, List.lookup])).1
    ⟨[("x", Json.num 1)], [("x", Json.num 2)], rfl, rfl⟩

/-- C10: NEW nodes never carry a nested child tree (wherever they sit in the
diff, and whatever the enriched value is); consequently, when a NEW key's own
state is not DECLINED, the merge copies the entire enriched value for that
key, whatever decisions any other path (in particular any descendant path
beneath the key) carries in the store. -/
theorem C10_new_nodes (o e : Json) (path : String) (p : List String) (node : DiffNode)
    (h : diffAt (compareJsonObjects o e path) p = some node)
    (ht : node.type = DiffType.NEW) :
    node.nested = none ∧
    (∀ (vs : FieldValidation) (pre : List String) (k : String), p = [k] →
      lookupState vs (joinPath (pre ++ [k])) ≠ ValidationState.DECLINED →
      jsGet (processObject o e (compareJsonObjects o e path) vs pre) k = jsGet e k) := by
  refine ⟨(compare_new_shape p o e path node h ht).2, ?_⟩
  rintro vs pre k rfl hs
  have hanc : ∀ (q r : List String) (anc : DiffNode), [k] = q ++ r → q ≠ [] → r ≠ [] →
      diffAt (compareJsonObjects o e path) q = some anc →
      anc.type = DiffType.MODIFIED →
      lookupState vs (joinPath (pre ++ q)) ≠ ValidationState.DECLINED := by
    intro q r anc hqr hq hr
    exfalso
    cases q with
    | nil => exact hq rfl
    | cons a as =>
      cases r with
      | nil => exact hr rfl
      | cons b bs =>
        have := congrArg List.length hqr
        simp at this
  have hfull := merge_new_included [k] o e path vs pre node h ht hs hanc
  rw [getPath_single, getPath_single] at hfull
  exact hfull

theorem C10_witness :
    jsGet (processObject (Json.obj []) (Json.obj [("a", Json.obj [("b", Json.num 1)])])
        (compareJsonObjects (Json.obj []) (Json.obj [("a", Json.obj [("b", Json.num 1)])]) "")
        (fun _ => none) []) "a"
      = jsGet (Json.obj [("a", Json.obj [("b", Json.num 1)])]) "a" := by
  have hd : compareJsonObjects (Json.obj []) (Json.obj [("a", Json.obj [("b", Json.num 1)])]) ""
      = [("a", DiffNode.mk DiffType.NEW (some (Json.obj [("b", Json.num 1)])) none none)] := by
    rw [compareJsonObjects.eq_def]
    simp [dedupKeys, jsObjKeys, nullToEmpty, jsGet, List.lookup]
  exact (C10_new_nodes (Json.obj []) (Json.obj [("a", Json.obj [("b", Json.num 1)])]) ""
    ["a"] (DiffNode.mk DiffType.NEW (some (Json.obj [("b", Json.num 1)])) none none)
    (by rw [show diffAt (compareJsonObjects (Json.obj [])
          (Json.obj [("a", Json.obj [("b", Json.num 1)])]) "") ["a"]
          = (compareJsonObjects (Json.obj [])
              (Json.obj [("a", Json.obj [("b", Json.num 1)])]) "").lookup "a" from rfl, hd]
        rfl)
    rfl).2 (fun _ => none) [] "a" rfl (by intro hc; cases hc)
